import Mathlib

/-!
# Verification of the openbp branch-and-price tree core

A shallow embedding of `src/core/node.hpp`, `src/core/tree.hpp` and
`src/core/selection.hpp` (namespace `openbp`), together with proofs and
refutations of the specification's claims about it.

Conventions of the embedding:

* C++ `double` is modelled by the type `D` below: an exact extended rational
  line (`-∞`, finite rationals, `+∞`) plus a `nan` element.  Arithmetic is
  exact (no rounding); the IEEE-754 rules for infinities, for `NaN`
  propagation and for comparisons involving `NaN` are preserved.
* `int32_t` / `int64_t` ids, depths and counters are modelled by `Int`
  (no claim depends on wrap-around).
* The C++ objects are mutable; the embedding is state passing: every
  mutating member function becomes a function returning the new state
  (paired with the C++ return value where there is one).
* `std::unordered_map<NodeId, BPNode*>` is modelled by an association list
  `List (Int × BPNode)`; lookup returns the first matching key.  Iteration
  order of the hash map is unspecified in C++; every iterating operation
  embedded here updates each entry independently, so the list order is
  immaterial.
* `std::priority_queue` is modelled by the list of elements in insertion
  order together with a top-selection function that returns a maximal
  element with respect to the C++ comparator (evaluated against the current
  node store).  This coincides with the heap's observable behaviour as long
  as the keys used by the comparator are not mutated while enqueued;
  tie-breaking among equal keys is unspecified in C++ and fixed here to
  "latest maximal element wins".
-/

/-- Model of a C++ `double`: `nan`, `-∞`, `+∞`, or an exact rational. -/
inductive D where
  | nan  : D
  | ninf : D
  | pinf : D
  | fin  : ℚ → D
deriving DecidableEq, Repr

namespace D

/-- IEEE `==` on doubles: `nan` compares unequal to everything. -/
def beq : D → D → Bool
  | nan, _ => false
  | _, nan => false
  | ninf, ninf => true
  | pinf, pinf => true
  | fin a, fin b => a = b
  | _, _ => false

/-- IEEE `<` on doubles: any comparison involving `nan` is false. -/
def lt : D → D → Bool
  | nan, _ => false
  | _, nan => false
  | ninf, ninf => false
  | ninf, pinf => true
  | ninf, fin _ => true
  | pinf, _ => false
  | fin _, pinf => true
  | fin _, ninf => false
  | fin a, fin b => a < b

/-- IEEE `<=` on doubles: any comparison involving `nan` is false. -/
def le : D → D → Bool
  | nan, _ => false
  | _, nan => false
  | ninf, _ => true
  | pinf, pinf => true
  | pinf, _ => false
  | fin _, ninf => false
  | fin _, pinf => true
  | fin a, fin b => a ≤ b

/-- IEEE subtraction on the extended line; `∞ - ∞` is `nan`. -/
def sub : D → D → D
  | nan, _ => nan
  | _, nan => nan
  | pinf, pinf => nan
  | pinf, _ => pinf
  | ninf, ninf => nan
  | ninf, _ => ninf
  | fin _, pinf => ninf
  | fin _, ninf => pinf
  | fin a, fin b => fin (a - b)

/-- `std::abs` on doubles. -/
def abs : D → D
  | nan => nan
  | ninf => pinf
  | pinf => pinf
  | fin a => fin |a|

/-- IEEE division, for the combinations reachable in this code base
(`∞ / ∞` is `nan`, `x / ∞` is `0`, division by the unsigned rational zero
follows the `+0` rules). -/
def div : D → D → D
  | nan, _ => nan
  | _, nan => nan
  | pinf, pinf => nan
  | pinf, ninf => nan
  | ninf, pinf => nan
  | ninf, ninf => nan
  | pinf, fin b => if 0 ≤ b then pinf else ninf
  | ninf, fin b => if 0 ≤ b then ninf else pinf
  | fin _, pinf => fin 0
  | fin _, ninf => fin 0
  | fin a, fin b =>
      if b = 0 then (if a = 0 then nan else if 0 < a then pinf else ninf)
      else fin (a / b)

/-- `std::min(a, b)`, which is `b < a ? b : a`. -/
def stdMin (a b : D) : D := if lt b a then b else a

end D

/-- The pruning tolerance `1e-6` of `BPNode::try_prune_by_bound`. -/
def eps6 : D := D.fin (1 / 1000000)

/-- `openbp::BranchType` (node.hpp). -/
inductive BranchType where
  | VARIABLE | RYAN_FOSTER | ARC | RESOURCE | CUSTOM
deriving DecidableEq, Repr

/-- `openbp::BranchingDecision` (node.hpp): one branching action, with the
in-class default member initializers of the C++ struct. -/
structure BranchingDecision where
  btype : BranchType
  variable_index : Int := -1
  bound_value : D := D.fin 0
  is_upper_bound : Bool := false
  item_i : Int := -1
  item_j : Int := -1
  same_column : Bool := false
  arc_index : Int := -1
  source_node : Int := -1
  arc_required : Bool := false
  resource_index : Int := -1
  lower_bound : D := D.fin 0
  upper_bound : D := D.pinf
  custom_int_data : List Int := []
  custom_float_data : List D := []
deriving DecidableEq, Repr

namespace BranchingDecision

/-- `BranchingDecision::variable_branch`. -/
def variable_branch (var_idx : Int) (value : D) (upper : Bool) : BranchingDecision :=
  { btype := BranchType.VARIABLE, variable_index := var_idx,
    bound_value := value, is_upper_bound := upper }

/-- `BranchingDecision::ryan_foster`. -/
def ryan_foster (i j : Int) (same : Bool) : BranchingDecision :=
  { btype := BranchType.RYAN_FOSTER, item_i := i, item_j := j, same_column := same }

/-- `BranchingDecision::arc_branch`. -/
def arc_branch (arc source : Int) (required : Bool) : BranchingDecision :=
  { btype := BranchType.ARC, arc_index := arc, source_node := source,
    arc_required := required }

/-- `BranchingDecision::resource_branch`. -/
def resource_branch (res_idx : Int) (lb ub : D) : BranchingDecision :=
  { btype := BranchType.RESOURCE, resource_index := res_idx,
    lower_bound := lb, upper_bound := ub }

end BranchingDecision

/-- `openbp::NodeStatus` (node.hpp). -/
inductive NodeStatus where
  | PENDING | PROCESSING | BRANCHED | PRUNED_BOUND | PRUNED_INFEASIBLE
  | INTEGER | FATHOMED
deriving DecidableEq, Repr

/-- `openbp::BPNode` (node.hpp).  `INVALID_ID` is `-1`. -/
structure BPNode where
  id : Int
  parent_id : Int
  depth : Int
  lower_bound : D
  upper_bound : D
  lp_value : D
  status : NodeStatus
  is_integer : Bool
  inherited_decisions : List BranchingDecision
  local_decisions : List BranchingDecision
  children : List Int
  solution : List D
  solution_columns : List Int
deriving DecidableEq, Repr

namespace BPNode

/-- The root-node constructor `BPNode()`. -/
def mkRoot : BPNode :=
  { id := 0, parent_id := -1, depth := 0,
    lower_bound := D.ninf, upper_bound := D.pinf, lp_value := D.pinf,
    status := NodeStatus.PENDING, is_integer := false,
    inherited_decisions := [], local_decisions := [],
    children := [], solution := [], solution_columns := [] }

/-- The child constructor `BPNode(id, parent_id, depth, decision)`:
the decision is pushed into `local_decisions`. -/
def mkChild (id parent_id depth : Int) (decision : BranchingDecision) : BPNode :=
  { id := id, parent_id := parent_id, depth := depth,
    lower_bound := D.ninf, upper_bound := D.pinf, lp_value := D.pinf,
    status := NodeStatus.PENDING, is_integer := false,
    inherited_decisions := [], local_decisions := [decision],
    children := [], solution := [], solution_columns := [] }

/-- `BPNode::gap()`. -/
def gap (n : BPNode) : D :=
  if D.beq n.upper_bound D.pinf || D.beq n.lower_bound D.ninf then D.pinf
  else if D.beq n.upper_bound (D.fin 0) then
    (if D.beq n.lower_bound (D.fin 0) then D.fin 0 else D.pinf)
  else D.div (D.sub n.upper_bound n.lower_bound) (D.abs n.upper_bound)

/-- `BPNode::is_processed()`. -/
def is_processed (n : BPNode) : Bool :=
  !(n.status = NodeStatus.PENDING) && !(n.status = NodeStatus.PROCESSING)

/-- `BPNode::is_pruned()`. -/
def is_pruned (n : BPNode) : Bool :=
  n.status = NodeStatus.PRUNED_BOUND || n.status = NodeStatus.PRUNED_INFEASIBLE ||
  n.status = NodeStatus.FATHOMED

/-- `BPNode::can_be_explored()`. -/
def can_be_explored (n : BPNode) : Bool :=
  n.status = NodeStatus.PENDING

/-- `BPNode::all_decisions()`: inherited followed by local. -/
def all_decisions (n : BPNode) : List BranchingDecision :=
  n.inherited_decisions ++ n.local_decisions

/-- `BPNode::num_decisions()`. -/
def num_decisions (n : BPNode) : Nat :=
  n.inherited_decisions.length + n.local_decisions.length

/-- `BPNode::try_prune_by_bound(global_upper)`: returns the C++ `bool`
result together with the node after the call.  The C++ body checks only
`lower_bound_ >= global_upper - 1e-6`; it never inspects the status. -/
def try_prune_by_bound (n : BPNode) (global_upper : D) : Bool × BPNode :=
  if D.le (D.sub global_upper eps6) n.lower_bound then
    (true, { n with status := NodeStatus.PRUNED_BOUND })
  else (false, n)

end BPNode

/-- `openbp::TreeStats` (tree.hpp). -/
structure TreeStats where
  nodes_created : Int := 0
  nodes_processed : Int := 0
  nodes_pruned_bound : Int := 0
  nodes_pruned_infeasible : Int := 0
  nodes_integer : Int := 0
  nodes_branched : Int := 0
  nodes_open : Int := 0
  max_depth : Int := 0
  best_lower_bound : D := D.ninf
  best_upper_bound : D := D.pinf
deriving DecidableEq, Repr

/-- First-match lookup in the id-to-node association list, modelling
`nodes_.find(id)` on the `std::unordered_map`. -/
def lookupNode : List (Int × BPNode) → Int → Option BPNode
  | [], _ => none
  | (k, n) :: rest, id => if k = id then some n else lookupNode rest id

/-- Apply `f` to the node(s) stored under key `id`, modelling an in-place
mutation through the `BPNode*` obtained from the map. -/
def updateNode (l : List (Int × BPNode)) (id : Int) (f : BPNode → BPNode) :
    List (Int × BPNode) :=
  l.map (fun p => if p.1 = id then (p.1, f p.2) else p)

/-- `openbp::BPTree` (tree.hpp).  The root pointer is represented by the
root's id; the incumbent pointer by an optional id. -/
structure BPTree where
  minimize : Bool
  nodes : List (Int × BPNode)
  root_id : Int
  incumbent : Option Int
  next_id : Int
  global_lower_bound : D
  global_upper_bound : D
  stats : TreeStats
deriving DecidableEq, Repr

namespace BPTree

/-- The constructor `BPTree(minimize)`: allocates the root (id `0`),
registers it, and counts it as created and open. -/
def new (minimize : Bool) : BPTree :=
  { minimize := minimize,
    nodes := [(0, BPNode.mkRoot)],
    root_id := 0,
    incumbent := none,
    next_id := 1,
    global_lower_bound := D.ninf,
    global_upper_bound := D.pinf,
    stats := { nodes_created := 1, nodes_open := 1 } }

/-- `BPTree::node(id)` (null pointer becomes `none`). -/
def node (t : BPTree) (id : Int) : Option BPNode :=
  lookupNode t.nodes id

/-- `BPTree::has_node(id)`. -/
def has_node (t : BPTree) (id : Int) : Bool :=
  (lookupNode t.nodes id).isSome

/-- `BPTree::num_nodes()`. -/
def num_nodes (t : BPTree) : Nat := t.nodes.length

/-- `BPTree::create_child(parent, decision)`.  The C++ function receives a
pointer to a node of this tree; here the parent is named by id and a call
with an unregistered id (which would dereference a dangling pointer in C++
and never happens in a valid run) leaves the tree unchanged.  The created
child's id is `t.next_id`. -/
def create_child (t : BPTree) (parent_id : Int) (decision : BranchingDecision) :
    BPTree :=
  match lookupNode t.nodes parent_id with
  | none => t
  | some parent =>
    let child_id := t.next_id
    let child : BPNode :=
      { BPNode.mkChild child_id parent_id (parent.depth + 1) decision with
        inherited_decisions := parent.all_decisions,
        lower_bound := parent.lower_bound,
        upper_bound := parent.upper_bound }
    let nodes1 :=
      updateNode t.nodes parent_id (fun p => { p with children := p.children ++ [child_id] })
    { t with
      nodes := nodes1 ++ [(child_id, child)],
      next_id := t.next_id + 1,
      stats := { t.stats with
        nodes_created := t.stats.nodes_created + 1,
        nodes_open := t.stats.nodes_open + 1,
        max_depth := if t.stats.max_depth < parent.depth + 1 then parent.depth + 1
                     else t.stats.max_depth } }

/-- `BPTree::create_children(parent, decisions)`: children left to right via
`create_child`, then the parent becomes `BRANCHED`, `nodes_branched` is
incremented and `nodes_open` decremented once. -/
def create_children (t : BPTree) (parent_id : Int)
    (decisions : List BranchingDecision) : BPTree :=
  let t1 := decisions.foldl (fun acc d => acc.create_child parent_id d) t
  { t1 with
    nodes := updateNode t1.nodes parent_id
      (fun p => { p with status := NodeStatus.BRANCHED }),
    stats := { t1.stats with
      nodes_branched := t1.stats.nodes_branched + 1,
      nodes_open := t1.stats.nodes_open - 1 } }

/-- `BPTree::mark_processed(node, new_status)` (the node is named by id;
an unregistered id would be a dangling pointer in C++). -/
def mark_processed (t : BPTree) (id : Int) (new_status : NodeStatus) : BPTree :=
  match lookupNode t.nodes id with
  | none => t
  | some n =>
    let old_status := n.status
    let nodes1 := updateNode t.nodes id (fun m => { m with status := new_status })
    let s1 :=
      if old_status = NodeStatus.PENDING ∨ old_status = NodeStatus.PROCESSING then
        { t.stats with
          nodes_processed := t.stats.nodes_processed + 1,
          nodes_open := if new_status ≠ NodeStatus.BRANCHED then t.stats.nodes_open - 1
                        else t.stats.nodes_open }
      else t.stats
    let s2 :=
      match new_status with
      | NodeStatus.PRUNED_BOUND =>
          { s1 with nodes_pruned_bound := s1.nodes_pruned_bound + 1 }
      | NodeStatus.PRUNED_INFEASIBLE =>
          { s1 with nodes_pruned_infeasible := s1.nodes_pruned_infeasible + 1 }
      | NodeStatus.INTEGER =>
          { s1 with nodes_integer := s1.nodes_integer + 1 }
      | _ => s1
    { t with nodes := nodes1, stats := s2 }

/-- `BPTree::update_bounds(node)`: the C++ function only reads through the
node pointer, so the node is passed by value; returns the `improved` flag
with the new tree. -/
def update_bounds (t : BPTree) (n : BPNode) : Bool × BPTree :=
  if n.is_integer && D.lt n.lp_value t.global_upper_bound then
    (true,
      { t with
        global_upper_bound := n.lp_value,
        stats := { t.stats with best_upper_bound := n.lp_value } })
  else (false, t)

/-- `BPTree::compute_lower_bound(open_node_ids)`. -/
def compute_lower_bound (t : BPTree) (open_node_ids : List Int) : D :=
  open_node_ids.foldl
    (fun lb id =>
      match lookupNode t.nodes id with
      | some n => if n.can_be_explored then D.stdMin lb n.lower_bound else lb
      | none => lb)
    t.global_upper_bound

/-- The per-node test of the `prune_by_bound` loop:
`node->can_be_explored() && node->try_prune_by_bound(global_upper_bound_)`
(the second call, and hence the status write, only happens when the first
test passed). -/
def pruneHits (gub : D) (p : Int × BPNode) : Bool :=
  p.2.can_be_explored && (p.2.try_prune_by_bound gub).1

/-- `BPTree::prune_by_bound()`: every registered node is visited once and
updated independently of the others; returns the number pruned with the
new tree. -/
def prune_by_bound (t : BPTree) : Int × BPTree :=
  let pruned : Int := (t.nodes.countP (pruneHits t.global_upper_bound) : Int)
  let nodes1 := t.nodes.map
    (fun p => if pruneHits t.global_upper_bound p then
        (p.1, (p.2.try_prune_by_bound t.global_upper_bound).2)
      else p)
  (pruned,
    { t with
      nodes := nodes1,
      stats := { t.stats with
        nodes_pruned_bound := t.stats.nodes_pruned_bound + pruned,
        nodes_open := t.stats.nodes_open - pruned } })

/-- `BPTree::get_open_nodes()`. -/
def get_open_nodes (t : BPTree) : List Int :=
  (t.nodes.filter (fun p => p.2.can_be_explored)).map (fun p => p.1)

/-- `BPTree::is_complete()`. -/
def is_complete (t : BPTree) : Bool :=
  t.stats.nodes_open = 0

/-- The `while (current != INVALID_ID)` loop of `get_path_to_root`: the
current id is pushed first, then looked up; a missing id breaks the loop.
The C++ loop terminates because parent ids strictly decrease in any tree
built through the public operations; the embedding makes this explicit
with a fuel argument that the wrapper instantiates generously. -/
def pathLoop (nodes : List (Int × BPNode)) : Nat → Int → List Int
  | 0, _ => []
  | fuel + 1, current =>
    if current = -1 then []
    else
      current ::
        (match lookupNode nodes current with
         | none => []
         | some n => pathLoop nodes fuel n.parent_id)

/-- `BPTree::get_path_to_root(target_id)`: collect ids walking parent links
from the target, then reverse. -/
def get_path_to_root (t : BPTree) (target_id : Int) : List Int :=
  (pathLoop t.nodes (t.nodes.length + 1) target_id).reverse

/-- `BPTree::set_incumbent(node)`: stores the pointer; only for a non-null
argument does it also assign the global upper bound and the stats entry.
The C++ argument is a pointer, modelled as `none` (null) or the
pointed-to node value. -/
def set_incumbent (t : BPTree) (n : Option BPNode) : BPTree :=
  match n with
  | none => { t with incumbent := none }
  | some node =>
    { t with
      incumbent := some node.id,
      global_upper_bound := node.lp_value,
      stats := { t.stats with best_upper_bound := node.lp_value } }

/-- `BPTree::set_global_lower_bound`. -/
def set_global_lower_bound (t : BPTree) (lb : D) : BPTree :=
  { t with global_lower_bound := lb }

/-- `BPTree::set_global_upper_bound`. -/
def set_global_upper_bound (t : BPTree) (ub : D) : BPTree :=
  { t with global_upper_bound := ub }

/-- An external-solver write `tree.node(id)->set_lower_bound(v)`. -/
def set_node_lower_bound (t : BPTree) (id : Int) (v : D) : BPTree :=
  { t with nodes := updateNode t.nodes id (fun n => { n with lower_bound := v }) }

/-- An external-solver write `tree.node(id)->set_upper_bound(v)`. -/
def set_node_upper_bound (t : BPTree) (id : Int) (v : D) : BPTree :=
  { t with nodes := updateNode t.nodes id (fun n => { n with upper_bound := v }) }

/-- An external-solver write `tree.node(id)->set_lp_value(v)`. -/
def set_node_lp_value (t : BPTree) (id : Int) (v : D) : BPTree :=
  { t with nodes := updateNode t.nodes id (fun n => { n with lp_value := v }) }

/-- An external-solver write `tree.node(id)->set_is_integer(b)`. -/
def set_node_is_integer (t : BPTree) (id : Int) (b : Bool) : BPTree :=
  { t with nodes := updateNode t.nodes id (fun n => { n with is_integer := b }) }

/-- An external-solver write `tree.node(id)->set_solution(sol)`. -/
def set_node_solution (t : BPTree) (id : Int) (sol : List D) : BPTree :=
  { t with nodes := updateNode t.nodes id (fun n => { n with solution := sol }) }

/-- An external-solver write `tree.node(id)->set_solution_columns(cols)`. -/
def set_node_solution_columns (t : BPTree) (id : Int) (cols : List Int) : BPTree :=
  { t with nodes := updateNode t.nodes id (fun n => { n with solution_columns := cols }) }

end BPTree

/-!
## Selectors (selection.hpp)

A selector holds non-owning handles (`BPNode*`) to nodes owned elsewhere.
A handle is modelled by the node's id together with a store
`σ : Int → BPNode` giving the node currently behind each pointer; external
mutation of a node is expressed by querying the same handle list against a
different store.

`BestFirstSelector` and `DepthFirstSelector` differ only in their
comparator, so the queue operations are defined once, parameterized by the
comparator `before` (the C++ `Compare`, where `before a b` means `a` has
lower priority than `b`).
-/

/-- The element `std::priority_queue::top()` would return: a maximal
element of the held handles with respect to `before` (the heap's
tie-breaking among equivalent keys is unspecified in C++). -/
def pqTop (before : Int → Int → Bool) : List Int → Option Int
  | [] => none
  | i :: rest => some (rest.foldl (fun b x => if before b x then x else b) i)

/-- Remove the first occurrence of `i`, modelling `pop()` of the top. -/
def removeFirst : List Int → Int → List Int
  | [], _ => []
  | x :: rest, i => if x = i then rest else x :: removeFirst rest i

/-- `add_node(node)` shared by both selectors: insert only a non-null,
currently explorable handle (the null-pointer case is not modelled; all
handles point at nodes). -/
def pqAdd (σ : Int → BPNode) (q : List Int) (i : Int) : List Int :=
  if (σ i).can_be_explored then q ++ [i] else q

/-- `prune()` shared by both selectors: drain the queue and reinsert the
still-explorable handles (as a multiset of handles this is a filter). -/
def pqPrune (σ : Int → BPNode) (q : List Int) : List Int :=
  q.filter (fun i => (σ i).can_be_explored)

/-- `select_next()` shared by both selectors: `prune()` first, then pop and
return the top, or null when empty. -/
def pqSelectNext (before : Int → Int → Bool) (σ : Int → BPNode) (q : List Int) :
    Option Int × List Int :=
  let q1 := pqPrune σ q
  match pqTop before q1 with
  | none => (none, q1)
  | some i => (some i, removeFirst q1 i)

/-- `BestFirstSelector::CompareByBound`: `a->lower_bound() > b->lower_bound()`
(a min-heap on the lower bound). -/
def bfCmp (σ : Int → BPNode) (a b : Int) : Bool :=
  D.lt ((σ b).lower_bound) ((σ a).lower_bound)

/-- `DepthFirstSelector::CompareByDepth`: depth max-heap with the lower
bound as tiebreaker. -/
def dfCmp (σ : Int → BPNode) (a b : Int) : Bool :=
  if (σ a).depth ≠ (σ b).depth then (σ a).depth < (σ b).depth
  else D.lt ((σ b).lower_bound) ((σ a).lower_bound)

/-- `BestFirstSelector::select_next()`. -/
def bfSelectNext (σ : Int → BPNode) (q : List Int) : Option Int × List Int :=
  pqSelectNext (bfCmp σ) σ q

/-- `DepthFirstSelector::select_next()`. -/
def dfSelectNext (σ : Int → BPNode) (q : List Int) : Option Int × List Int :=
  pqSelectNext (dfCmp σ) σ q

/-- `BestFirstSelector::best_bound()`: `+∞` when the queue is empty,
otherwise the lower bound of the heap top — with no explorability check. -/
def bfBestBound (σ : Int → BPNode) (q : List Int) : D :=
  match pqTop (bfCmp σ) q with
  | none => D.pinf
  | some i => (σ i).lower_bound

/-- `DepthFirstSelector::best_bound()`: `+∞` when the queue is empty,
otherwise `std::min` folded over every held handle — with no
explorability check. -/
def dfBestBound (σ : Int → BPNode) (q : List Int) : D :=
  if q.isEmpty then D.pinf
  else q.foldl (fun best i => D.stdMin best ((σ i).lower_bound)) D.pinf

/-- Repeated `select_next` until it returns null, collecting the returned
handles; the fuel is an upper bound on the number of iterations and is
instantiated with the queue length (each successful step shrinks the
queue). -/
def pqDrain (before : Int → Int → Bool) (σ : Int → BPNode) :
    Nat → List Int → List Int
  | 0, _ => []
  | fuel + 1, q =>
    match pqSelectNext before σ q with
    | (none, _) => []
    | (some i, q') => i :: pqDrain before σ fuel q'

/-- All nodes a `BestFirstSelector` returns, in order, from working set `q`. -/
def bfRunAll (σ : Int → BPNode) (q : List Int) : List Int :=
  pqDrain (bfCmp σ) σ q.length q

/-- All nodes a `DepthFirstSelector` returns, in order, from working set `q`. -/
def dfRunAll (σ : Int → BPNode) (q : List Int) : List Int :=
  pqDrain (dfCmp σ) σ q.length q

/-!
## Reachable tree states

`Reached` closes `BPTree.new` under the public surface of the tree listed
in the specification's external-interface section: the driver-facing tree
operations and the external solver's per-node setters.
-/

/-- A status in the terminal set
`{BRANCHED, PRUNED_BOUND, PRUNED_INFEASIBLE, INTEGER, FATHOMED}`. -/
def NodeStatus.isTerminal : NodeStatus → Bool
  | NodeStatus.PENDING => false
  | NodeStatus.PROCESSING => false
  | _ => true

/-- Number of stored nodes whose status satisfies `pred`. -/
def countS (pred : NodeStatus → Bool) (l : List (Int × BPNode)) : Nat :=
  l.countP (fun p => pred p.2.status)

/-- Tree states reachable through the public operations. -/
inductive Reached : BPTree → Prop where
  | new (m : Bool) : Reached (BPTree.new m)
  | create_child {t : BPTree} (h : Reached t) (pid : Int) (d : BranchingDecision) :
      Reached (t.create_child pid d)
  | create_children {t : BPTree} (h : Reached t) (pid : Int)
      (ds : List BranchingDecision) : Reached (t.create_children pid ds)
  | mark_processed {t : BPTree} (h : Reached t) (id : Int) (s : NodeStatus) :
      Reached (t.mark_processed id s)
  | prune_by_bound {t : BPTree} (h : Reached t) : Reached t.prune_by_bound.2
  | update_bounds {t : BPTree} (h : Reached t) (n : BPNode) :
      Reached (t.update_bounds n).2
  | set_incumbent {t : BPTree} (h : Reached t) (n : Option BPNode) :
      Reached (t.set_incumbent n)
  | set_global_lower_bound {t : BPTree} (h : Reached t) (v : D) :
      Reached (t.set_global_lower_bound v)
  | set_global_upper_bound {t : BPTree} (h : Reached t) (v : D) :
      Reached (t.set_global_upper_bound v)
  | set_node_lower_bound {t : BPTree} (h : Reached t) (id : Int) (v : D) :
      Reached (t.set_node_lower_bound id v)
  | set_node_upper_bound {t : BPTree} (h : Reached t) (id : Int) (v : D) :
      Reached (t.set_node_upper_bound id v)
  | set_node_lp_value {t : BPTree} (h : Reached t) (id : Int) (v : D) :
      Reached (t.set_node_lp_value id v)
  | set_node_is_integer {t : BPTree} (h : Reached t) (id : Int) (b : Bool) :
      Reached (t.set_node_is_integer id b)
  | set_node_solution {t : BPTree} (h : Reached t) (id : Int) (sol : List D) :
      Reached (t.set_node_solution id sol)
  | set_node_solution_columns {t : BPTree} (h : Reached t) (id : Int)
      (cols : List Int) : Reached (t.set_node_solution_columns id cols)

/-- Tree states reachable when the status-changing operations are used with
the discipline the statistics counters assume: `mark_processed` only moves
a still-explorable node to a terminal status other than `BRANCHED`
(`BRANCHED` is produced only by `create_children`), and `create_children`
is only applied to a still-explorable parent. -/
inductive StatsReached : BPTree → Prop where
  | new (m : Bool) : StatsReached (BPTree.new m)
  | create_child {t : BPTree} (h : StatsReached t) (pid : Int)
      (d : BranchingDecision) : StatsReached (t.create_child pid d)
  | create_children {t : BPTree} (h : StatsReached t) (pid : Int)
      (ds : List BranchingDecision) (p : BPNode)
      (hp : lookupNode t.nodes pid = some p) (hex : p.can_be_explored = true) :
      StatsReached (t.create_children pid ds)
  | mark_processed {t : BPTree} (h : StatsReached t) (id : Int) (s : NodeStatus)
      (n : BPNode) (hn : lookupNode t.nodes id = some n)
      (hex : n.can_be_explored = true)
      (hs : s.isTerminal = true) (hb : s ≠ NodeStatus.BRANCHED) :
      StatsReached (t.mark_processed id s)
  | prune_by_bound {t : BPTree} (h : StatsReached t) :
      StatsReached t.prune_by_bound.2
  | update_bounds {t : BPTree} (h : StatsReached t) (n : BPNode) :
      StatsReached (t.update_bounds n).2
  | set_incumbent {t : BPTree} (h : StatsReached t) (n : Option BPNode) :
      StatsReached (t.set_incumbent n)
  | set_global_lower_bound {t : BPTree} (h : StatsReached t) (v : D) :
      StatsReached (t.set_global_lower_bound v)
  | set_global_upper_bound {t : BPTree} (h : StatsReached t) (v : D) :
      StatsReached (t.set_global_upper_bound v)
  | set_node_lower_bound {t : BPTree} (h : StatsReached t) (id : Int) (v : D) :
      StatsReached (t.set_node_lower_bound id v)
  | set_node_upper_bound {t : BPTree} (h : StatsReached t) (id : Int) (v : D) :
      StatsReached (t.set_node_upper_bound id v)
  | set_node_lp_value {t : BPTree} (h : StatsReached t) (id : Int) (v : D) :
      StatsReached (t.set_node_lp_value id v)
  | set_node_is_integer {t : BPTree} (h : StatsReached t) (id : Int) (b : Bool) :
      StatsReached (t.set_node_is_integer id b)
  | set_node_solution {t : BPTree} (h : StatsReached t) (id : Int) (sol : List D) :
      StatsReached (t.set_node_solution id sol)
  | set_node_solution_columns {t : BPTree} (h : StatsReached t) (id : Int)
      (cols : List Int) : StatsReached (t.set_node_solution_columns id cols)

/-!
## Association-list lemmas
-/

/-- First entry (key-value pair) stored under key `i`. -/
def lookupEntry : List (Int × BPNode) → Int → Option (Int × BPNode)
  | [], _ => none
  | p :: rest, i => if p.1 = i then some p else lookupEntry rest i

theorem lookupNode_eq_entry (l : List (Int × BPNode)) (i : Int) :
    lookupNode l i = (lookupEntry l i).map Prod.snd := by
  induction l with
  | nil => rfl
  | cons p rest ih =>
    by_cases h : p.1 = i
    · simp [lookupNode, lookupEntry, h]
    · simpa [lookupNode, lookupEntry, h] using ih

theorem lookupEntry_mem {l : List (Int × BPNode)} {i : Int} {p : Int × BPNode}
    (h : lookupEntry l i = some p) : p ∈ l ∧ p.1 = i := by
  induction l with
  | nil => simp [lookupEntry] at h
  | cons q rest ih =>
    by_cases hq : q.1 = i
    · have hqp : q = p := by simpa [lookupEntry, hq] using h
      subst hqp
      exact ⟨List.mem_cons_self q rest, hq⟩
    · simp only [lookupEntry, hq, if_neg, ite_false] at h
      rcases ih h with ⟨hm, hk⟩
      exact ⟨List.mem_cons_of_mem q hm, hk⟩

theorem lookupEntry_map {F : Int × BPNode → Int × BPNode}
    (hkey : ∀ p, (F p).1 = p.1) (l : List (Int × BPNode)) (i : Int) :
    lookupEntry (l.map F) i = (lookupEntry l i).map F := by
  induction l with
  | nil => rfl
  | cons p rest ih =>
    by_cases h : p.1 = i
    · simp [lookupEntry, hkey p, h]
    · simp [lookupEntry, hkey p, h, ih]

theorem lookupEntry_append_left {l1 : List (Int × BPNode)}
    (l2 : List (Int × BPNode)) {i : Int} {p : Int × BPNode}
    (h : lookupEntry l1 i = some p) : lookupEntry (l1 ++ l2) i = some p := by
  induction l1 with
  | nil => simp [lookupEntry] at h
  | cons q rest ih =>
    by_cases hq : q.1 = i
    · simp only [lookupEntry, hq, if_pos] at h
      simp [lookupEntry, hq, h]
    · simp only [lookupEntry, hq, if_neg, ite_false] at h
      simpa [lookupEntry, hq] using ih h

theorem lookupEntry_append_right {l1 : List (Int × BPNode)}
    (l2 : List (Int × BPNode)) {i : Int}
    (h : lookupEntry l1 i = none) : lookupEntry (l1 ++ l2) i = lookupEntry l2 i := by
  induction l1 with
  | nil => rfl
  | cons q rest ih =>
    by_cases hq : q.1 = i
    · simp [lookupEntry, hq] at h
    · simp only [lookupEntry, hq, if_neg, ite_false] at h
      simpa [lookupEntry, hq] using ih h

/-- `updateNode` is the pointwise map that rewrites the entries under `id`. -/
theorem updateNode_eq_map (l : List (Int × BPNode)) (id : Int) (f : BPNode → BPNode) :
    updateNode l id f = l.map (fun p => if p.1 = id then (p.1, f p.2) else p) := rfl

theorem updateNode_keys (l : List (Int × BPNode)) (id : Int) (f : BPNode → BPNode) :
    (updateNode l id f).map Prod.fst = l.map Prod.fst := by
  induction l with
  | nil => rfl
  | cons p rest ih =>
    by_cases h : p.1 = id <;> simp [updateNode, h] at ih ⊢ <;> exact ih

/-!
## Decision-propagation invariant (claim C1)
-/

/-- Every registered non-root node's inherited decisions are its parent's
inherited decisions followed by its parent's local decisions. -/
def decInvL (l : List (Int × BPNode)) : Prop :=
  ∀ p ∈ l, p.2.parent_id ≠ -1 →
    ∃ q, lookupNode l p.2.parent_id = some q ∧
      p.2.inherited_decisions = q.inherited_decisions ++ q.local_decisions

theorem lookupNode_append_left {l1 : List (Int × BPNode)}
    (l2 : List (Int × BPNode)) {i : Int} {n : BPNode}
    (h : lookupNode l1 i = some n) : lookupNode (l1 ++ l2) i = some n := by
  rw [lookupNode_eq_entry] at h ⊢
  rcases Option.map_eq_some'.mp h with ⟨e, he, hn⟩
  rw [lookupEntry_append_left l2 he]
  simpa using hn

theorem decInvL_map {F : Int × BPNode → Int × BPNode}
    (hkey : ∀ p, (F p).1 = p.1)
    (hpar : ∀ p, (F p).2.parent_id = p.2.parent_id)
    (hinh : ∀ p, (F p).2.inherited_decisions = p.2.inherited_decisions)
    (hloc : ∀ p, (F p).2.local_decisions = p.2.local_decisions)
    {l : List (Int × BPNode)} (h : decInvL l) : decInvL (l.map F) := by
  intro p hp hne
  rcases List.mem_map.mp hp with ⟨p0, hp0, rfl⟩
  have hne0 : p0.2.parent_id ≠ -1 := by rwa [hpar p0] at hne
  rcases h p0 hp0 hne0 with ⟨q, hq, hdec⟩
  rw [lookupNode_eq_entry] at hq
  rcases Option.map_eq_some'.mp hq with ⟨e, he, hq2⟩
  refine ⟨(F e).2, ?_, ?_⟩
  · rw [hpar p0, lookupNode_eq_entry, lookupEntry_map hkey, he]
    rfl
  · rw [hinh p0, hinh e, hloc e, hq2]
    exact hdec

theorem decInvL_updateNode {f : BPNode → BPNode}
    (hpar : ∀ n, (f n).parent_id = n.parent_id)
    (hinh : ∀ n, (f n).inherited_decisions = n.inherited_decisions)
    (hloc : ∀ n, (f n).local_decisions = n.local_decisions)
    {l : List (Int × BPNode)} (id : Int) (h : decInvL l) :
    decInvL (updateNode l id f) := by
  rw [updateNode_eq_map]
  refine decInvL_map ?_ ?_ ?_ ?_ h <;> intro p <;> by_cases hp : p.1 = id <;>
    simp [hp, hpar, hinh, hloc]

theorem decInvL_create_child (t : BPTree) (pid : Int) (d : BranchingDecision)
    (h : decInvL t.nodes) : decInvL (t.create_child pid d).nodes := by
  unfold BPTree.create_child
  cases hl : lookupNode t.nodes pid with
  | none => exact h
  | some parent =>
    simp only
    set fch : BPNode → BPNode :=
      fun p => { p with children := p.children ++ [t.next_id] } with hfch
    have hupd : decInvL (updateNode t.nodes pid fch) :=
      decInvL_updateNode (by intro n; rfl) (by intro n; rfl) (by intro n; rfl) pid h
    intro p hp hne
    rcases List.mem_append.mp hp with hp | hp
    · rcases hupd p hp hne with ⟨q, hq, hdec⟩
      exact ⟨q, lookupNode_append_left _ hq, hdec⟩
    · have hpp : p = (t.next_id,
          { BPNode.mkChild t.next_id pid (parent.depth + 1) d with
            inherited_decisions := parent.all_decisions,
            lower_bound := parent.lower_bound,
            upper_bound := parent.upper_bound }) := by
        simpa using hp
      subst hpp
      rw [lookupNode_eq_entry] at hl
      rcases Option.map_eq_some'.mp hl with ⟨e, he, he2⟩
      have hent : lookupEntry (updateNode t.nodes pid fch) pid = some (e.1, fch e.2) := by
        rw [updateNode_eq_map, lookupEntry_map (by intro q; by_cases hq : q.1 = pid <;> simp [hq]), he]
        simp [(lookupEntry_mem he).2]
      refine ⟨fch e.2, ?_, ?_⟩
      · show lookupNode _ pid = _
        rw [lookupNode_eq_entry, lookupEntry_append_left _ hent]
        rfl
      · show parent.all_decisions = _
        rw [BPNode.all_decisions, he2]

theorem decInvL_create_children_fold (pid : Int) (ds : List BranchingDecision) :
    ∀ t : BPTree, decInvL t.nodes →
      decInvL (ds.foldl (fun acc d => acc.create_child pid d) t).nodes := by
  induction ds with
  | nil => intro t h; exact h
  | cons d ds ih =>
    intro t h
    exact ih (t.create_child pid d) (decInvL_create_child t pid d h)

theorem decInvL_create_children (t : BPTree) (pid : Int)
    (ds : List BranchingDecision) (h : decInvL t.nodes) :
    decInvL (t.create_children pid ds).nodes := by
  show decInvL (updateNode (ds.foldl (fun acc d => acc.create_child pid d) t).nodes pid
    (fun p => { p with status := NodeStatus.BRANCHED }))
  refine decInvL_updateNode ?_ ?_ ?_ pid (decInvL_create_children_fold pid ds t h) <;>
    (intro n; rfl)

theorem decInvL_mark_processed (t : BPTree) (id : Int) (s : NodeStatus)
    (h : decInvL t.nodes) : decInvL (t.mark_processed id s).nodes := by
  unfold BPTree.mark_processed
  cases hl : lookupNode t.nodes id with
  | none => exact h
  | some n =>
    show decInvL (updateNode t.nodes id (fun m => { m with status := s }))
    refine decInvL_updateNode ?_ ?_ ?_ id h <;> (intro m; rfl)

theorem try_prune_fields (n : BPNode) (g : D) :
    (n.try_prune_by_bound g).2.parent_id = n.parent_id ∧
    (n.try_prune_by_bound g).2.inherited_decisions = n.inherited_decisions ∧
    (n.try_prune_by_bound g).2.local_decisions = n.local_decisions := by
  unfold BPNode.try_prune_by_bound
  split <;> exact ⟨rfl, rfl, rfl⟩

theorem decInvL_prune_by_bound (t : BPTree) (h : decInvL t.nodes) :
    decInvL t.prune_by_bound.2.nodes := by
  unfold BPTree.prune_by_bound
  simp only
  refine decInvL_map ?_ ?_ ?_ ?_ h <;> intro p <;>
    by_cases hp : BPTree.pruneHits t.global_upper_bound p <;>
      simp [hp, (try_prune_fields p.2 t.global_upper_bound).1,
        (try_prune_fields p.2 t.global_upper_bound).2.1,
        (try_prune_fields p.2 t.global_upper_bound).2.2]

theorem update_bounds_nodes (t : BPTree) (n : BPNode) :
    (t.update_bounds n).2.nodes = t.nodes := by
  unfold BPTree.update_bounds
  split <;> rfl

theorem set_incumbent_nodes (t : BPTree) (n : Option BPNode) :
    (t.set_incumbent n).nodes = t.nodes := by
  cases n <;> rfl

/-- C1: in every reachable tree, every non-root registered node N satisfies
`inherited_decisions(N) = inherited_decisions(parent) ++ local_decisions(parent)`,
i.e. (by induction along parent links) the concatenation of the
`local_decisions` of N's ancestors in root-to-parent order; the public
operations never rewrite decision lists, so this holds at every observable
instant after N's creation. -/
theorem C1_inherited_decisions_invariant (t : BPTree) (h : Reached t) :
    ∀ p ∈ t.nodes, p.2.parent_id ≠ -1 →
      ∃ q, lookupNode t.nodes p.2.parent_id = some q ∧
        p.2.inherited_decisions = q.inherited_decisions ++ q.local_decisions := by
  have hinv : decInvL t.nodes := by
    induction h with
    | new m =>
      intro p hp hne
      have hp0 : p = (0, BPNode.mkRoot) := by simpa [BPTree.new] using hp
      rw [hp0] at hne
      exact absurd rfl hne
    | create_child h pid d ih => exact decInvL_create_child _ pid d ih
    | create_children h pid ds ih => exact decInvL_create_children _ pid ds ih
    | mark_processed h id s ih => exact decInvL_mark_processed _ id s ih
    | prune_by_bound h ih => exact decInvL_prune_by_bound _ ih
    | update_bounds h n ih =>
      show decInvL _
      rw [update_bounds_nodes]
      exact ih
    | set_incumbent h n ih =>
      show decInvL _
      rw [set_incumbent_nodes]
      exact ih
    | set_global_lower_bound h v ih => exact ih
    | set_global_upper_bound h v ih => exact ih
    | set_node_lower_bound h id v ih =>
      show decInvL (updateNode _ id (fun n => { n with lower_bound := v }))
      refine decInvL_updateNode ?_ ?_ ?_ id ih <;> (intro m; rfl)
    | set_node_upper_bound h id v ih =>
      show decInvL (updateNode _ id (fun n => { n with upper_bound := v }))
      refine decInvL_updateNode ?_ ?_ ?_ id ih <;> (intro m; rfl)
    | set_node_lp_value h id v ih =>
      show decInvL (updateNode _ id (fun n => { n with lp_value := v }))
      refine decInvL_updateNode ?_ ?_ ?_ id ih <;> (intro m; rfl)
    | set_node_is_integer h id b ih =>
      show decInvL (updateNode _ id (fun n => { n with is_integer := b }))
      refine decInvL_updateNode ?_ ?_ ?_ id ih <;> (intro m; rfl)
    | set_node_solution h id sol ih =>
      show decInvL (updateNode _ id (fun n => { n with solution := sol }))
      refine decInvL_updateNode ?_ ?_ ?_ id ih <;> (intro m; rfl)
    | set_node_solution_columns h id cols ih =>
      show decInvL (updateNode _ id (fun n => { n with solution_columns := cols }))
      refine decInvL_updateNode ?_ ?_ ?_ id ih <;> (intro m; rfl)
  exact hinv

/-- The concrete two-level tree of scenario E2: root, a child by a variable
branch, and a grandchild by a Ryan-Foster branch. -/
def C1exTree : BPTree :=
  (((BPTree.new true).create_child 0
      (BranchingDecision.variable_branch 0 (D.fin 1) true)).create_child 1
    (BranchingDecision.ryan_foster 1 2 true))

/-- The grandchild entry of `C1exTree` (id 2). -/
def C1exPair : Int × BPNode := C1exTree.nodes.getD 2 (0, BPNode.mkRoot)

theorem C1_inherited_decisions_invariant_witness :
    ∃ q, lookupNode C1exTree.nodes C1exPair.2.parent_id = some q ∧
      C1exPair.2.inherited_decisions =
        q.inherited_decisions ++ q.local_decisions :=
  C1_inherited_decisions_invariant C1exTree
    (Reached.create_child
      (Reached.create_child (Reached.new true) 0
        (BranchingDecision.variable_branch 0 (D.fin 1) true)) 1
      (BranchingDecision.ryan_foster 1 2 true))
    C1exPair (by decide) (by decide)

/-- C10: `set_incumbent(nullptr)` clears the incumbent and changes nothing
else: the resulting tree is the input with only the incumbent field
replaced, so the global bounds, the statistics and every node are
untouched (the bound assignment happens only for a non-null argument). -/
theorem C10_set_incumbent_null_frame (t : BPTree) :
    t.set_incumbent none = { t with incumbent := none } ∧
    (t.set_incumbent none).incumbent = none ∧
    (t.set_incumbent none).global_upper_bound = t.global_upper_bound ∧
    (t.set_incumbent none).stats = t.stats ∧
    (t.set_incumbent none).nodes = t.nodes :=
  ⟨rfl, rfl, rfl, rfl, rfl⟩

/-- C8: `update_bounds(node)` returns true exactly when the node carries an
integer solution whose `lp_value` is strictly below the current global
upper bound; in that case the only change is that `global_upper_bound` and
`stats.best_upper_bound` become `lp_value`, and on a false return the tree
is completely unchanged. -/
theorem C8_update_bounds_characterization (t : BPTree) (n : BPNode) :
    ((t.update_bounds n).1 = true ↔
      (n.is_integer = true ∧ D.lt n.lp_value t.global_upper_bound = true)) ∧
    ((t.update_bounds n).1 = true →
      (t.update_bounds n).2 =
        { t with
          global_upper_bound := n.lp_value,
          stats := { t.stats with best_upper_bound := n.lp_value } }) ∧
    ((t.update_bounds n).1 = false → (t.update_bounds n).2 = t) := by
  unfold BPTree.update_bounds
  by_cases h : n.is_integer && D.lt n.lp_value t.global_upper_bound
  · rw [Bool.and_eq_true] at h
    simp [h.1, h.2]
  · rw [Bool.and_eq_true] at h
    push_neg at h
    by_cases hi : n.is_integer = true
    · simp [hi, h hi]
    · simp [Bool.not_eq_true] at hi
      simp [hi]

/-- Concrete input for the C8 witness: a fresh tree (upper bound `+∞`) and
an integer node with `lp_value = 50`. -/
def C8exNode : BPNode :=
  { BPNode.mkRoot with is_integer := true, lp_value := D.fin 50 }

theorem C8_update_bounds_characterization_witness :
    ((BPTree.new true).update_bounds C8exNode).2 =
      { BPTree.new true with
        global_upper_bound := D.fin 50,
        stats := { (BPTree.new true).stats with best_upper_bound := D.fin 50 } } :=
  (C8_update_bounds_characterization (BPTree.new true) C8exNode).2.1 (by decide)

/-- C3 counterexample: a node that is already terminal (`BRANCHED`) with
`lower_bound = 100` against `global_upper = 50` is nevertheless transitioned
to `PRUNED_BOUND` with a true return by `try_prune_by_bound`, while the
claim requires a false return and no change for a terminal node. -/
def C3exNode : BPNode :=
  { BPNode.mkRoot with status := NodeStatus.BRANCHED, lower_bound := D.fin 100 }

theorem C3_terminal_node_still_pruned :
    C3exNode.status = NodeStatus.BRANCHED ∧
    (C3exNode.try_prune_by_bound (D.fin 50)).1 = true ∧
    (C3exNode.try_prune_by_bound (D.fin 50)).2.status = NodeStatus.PRUNED_BOUND := by
  have hle : D.le (D.sub (D.fin 50) eps6) C3exNode.lower_bound = true := by
    show D.le (D.sub (D.fin 50) eps6) (D.fin 100) = true
    simp only [eps6, D.sub, D.le, decide_eq_true_eq]
    norm_num
  refine ⟨rfl, ?_, ?_⟩ <;> simp [BPNode.try_prune_by_bound, hle]

/-- C3 amended: `try_prune_by_bound(g)` transitions the node to
`PRUNED_BOUND` and returns true exactly when `lower_bound ≥ g − 1e-6`,
regardless of the current status (the non-terminal guard exists only at
the tree level, where `prune_by_bound` calls it solely on explorable
nodes); otherwise the node is unchanged and the call returns false. -/
theorem C3_amended_try_prune_by_bound (n : BPNode) (g : D) :
    ((n.try_prune_by_bound g).1 = true ↔
      D.le (D.sub g eps6) n.lower_bound = true) ∧
    ((n.try_prune_by_bound g).1 = true →
      (n.try_prune_by_bound g).2 = { n with status := NodeStatus.PRUNED_BOUND }) ∧
    ((n.try_prune_by_bound g).1 = false → (n.try_prune_by_bound g).2 = n) := by
  unfold BPNode.try_prune_by_bound
  by_cases h : D.le (D.sub g eps6) n.lower_bound = true <;> simp [h]

/-- Concrete input for the C3 witness: a pending node with
`lower_bound = 100` pruned against `global_upper = 50`. -/
def C3exPending : BPNode := { BPNode.mkRoot with lower_bound := D.fin 100 }

theorem C3_amended_try_prune_by_bound_witness :
    (C3exPending.try_prune_by_bound (D.fin 50)).2 =
      { C3exPending with status := NodeStatus.PRUNED_BOUND } :=
  (C3_amended_try_prune_by_bound C3exPending (D.fin 50)).2.1 (by
    have hle : D.le (D.sub (D.fin 50) eps6) C3exPending.lower_bound = true := by
      show D.le (D.sub (D.fin 50) eps6) (D.fin 100) = true
      simp only [eps6, D.sub, D.le, decide_eq_true_eq]
      norm_num
    simp [BPNode.try_prune_by_bound, hle])

/-- C4 counterexample: in a fresh tree the id `5` is unregistered, yet
`get_path_to_root(5)` returns the singleton `[5]` (the loop pushes the
target id before the failing lookup), not the empty sequence the claim
requires. -/
theorem C4_unknown_id_gives_singleton :
    lookupNode (BPTree.new true).nodes 5 = none ∧
    (BPTree.new true).get_path_to_root 5 = [5] ∧
    (BPTree.new true).get_path_to_root 5 ≠ [] := by
  decide

/-- C4 amended: for an id that is not registered in the id-to-node map,
`get_path_to_root` returns the one-element sequence holding exactly that
id — except for the sentinel `INVALID_ID = -1`, for which it returns the
empty sequence. -/
theorem C4_amended_unknown_id_path (t : BPTree) (id : Int)
    (h : lookupNode t.nodes id = none) :
    t.get_path_to_root id = if id = -1 then [] else [id] := by
  unfold BPTree.get_path_to_root
  by_cases hid : id = -1
  · simp [BPTree.pathLoop, hid]
  · simp [BPTree.pathLoop, hid, h]

theorem C4_amended_unknown_id_path_witness :
    (BPTree.new true).get_path_to_root 7 = if (7 : Int) = -1 then [] else [7] :=
  C4_amended_unknown_id_path (BPTree.new true) 7 (by decide)

/-- C9: the node gap is `(upper − lower) / |upper|` for finite bounds with
nonzero upper bound, `+∞` whenever `upper = +∞` or `lower = −∞`, and for
`upper = 0` it is `0` exactly when `lower = 0` and `+∞` otherwise. -/
theorem C9_gap_characterization (n : BPNode) :
    (∀ qu ql : ℚ, n.upper_bound = D.fin qu → n.lower_bound = D.fin ql →
      qu ≠ 0 → n.gap = D.fin ((qu - ql) / |qu|)) ∧
    ((n.upper_bound = D.pinf ∨ n.lower_bound = D.ninf) → n.gap = D.pinf) ∧
    (n.upper_bound = D.fin 0 →
      ((n.lower_bound = D.fin 0 → n.gap = D.fin 0) ∧
       (n.lower_bound ≠ D.fin 0 → n.gap = D.pinf))) := by
  refine ⟨?_, ?_, ?_⟩
  · intro qu ql h1 h2 h0
    have habs : |qu| ≠ 0 := fun hc => h0 (abs_eq_zero.mp hc)
    simp [BPNode.gap, h1, h2, D.beq, D.sub, D.abs, D.div, h0, habs]
  · intro h
    rcases h with h | h
    · simp [BPNode.gap, h, D.beq]
    · simp [BPNode.gap, h, D.beq]
  · intro h1
    constructor
    · intro h2
      simp [BPNode.gap, h1, h2, D.beq]
    · intro h2
      cases hlb : n.lower_bound with
      | nan => simp [BPNode.gap, h1, hlb, D.beq]
      | ninf => simp [BPNode.gap, h1, hlb, D.beq]
      | pinf => simp [BPNode.gap, h1, hlb, D.beq]
      | fin q =>
        have hq : q ≠ 0 := by
          intro hc
          exact h2 (by rw [hlb, hc])
        simp [BPNode.gap, h1, hlb, D.beq, hq]

/-- Concrete input for the C9 witness: finite bounds `[90, 100]`. -/
def C9exNode : BPNode :=
  { BPNode.mkRoot with lower_bound := D.fin 90, upper_bound := D.fin 100 }

theorem C9_gap_characterization_witness :
    C9exNode.gap = D.fin ((100 - 90) / |(100 : ℚ)|) :=
  (C9_gap_characterization C9exNode).1 100 90 rfl rfl (by norm_num)

/-!
## Statistics invariant (claim C2)
-/

/-- The status is `PENDING` (the scan definition of an open node). -/
def isPending (s : NodeStatus) : Bool := s = NodeStatus.PENDING

theorem updateNode_of_not_mem {l : List (Int × BPNode)} {id : Int}
    (h : id ∉ l.map Prod.fst) (f : BPNode → BPNode) : updateNode l id f = l := by
  induction l with
  | nil => rfl
  | cons p rest ih =>
    simp only [List.map_cons, List.mem_cons, not_or] at h
    have hp : ¬ p.1 = id := fun hc => h.1 hc.symm
    show (if p.1 = id then (p.1, f p.2) else p) :: updateNode rest id f = p :: rest
    rw [if_neg hp, ih h.2]

theorem countS_map_status {F : Int × BPNode → Int × BPNode}
    (hst : ∀ p, (F p).2.status = p.2.status) (pred : NodeStatus → Bool)
    (l : List (Int × BPNode)) : countS pred (l.map F) = countS pred l := by
  induction l with
  | nil => rfl
  | cons p rest ih =>
    simp only [List.map_cons, countS, List.countP_cons] at ih ⊢
    rw [hst p, ih]

theorem countS_updateNode {l : List (Int × BPNode)} {id : Int} {e : Int × BPNode}
    (hnd : (l.map Prod.fst).Nodup) (he : lookupEntry l id = some e)
    (pred : NodeStatus → Bool) (f : BPNode → BPNode) :
    countS pred (updateNode l id f) + (if pred e.2.status then 1 else 0)
      = countS pred l + (if pred (f e.2).status then 1 else 0) := by
  induction l with
  | nil => simp [lookupEntry] at he
  | cons p rest ih =>
    simp only [List.map_cons, List.nodup_cons] at hnd
    by_cases hp : p.1 = id
    · have hep : e = p := by
        have := he
        simp only [lookupEntry, hp, if_pos] at this
        exact (Option.some_inj.mp this).symm
      subst hep
      have hrest : id ∉ rest.map Prod.fst := by
        rw [← hp]; exact hnd.1
      have hupd : updateNode rest id f = rest := updateNode_of_not_mem hrest f
      show countS pred ((if e.1 = id then (e.1, f e.2) else e) :: updateNode rest id f) +
        _ = _
      rw [if_pos hp, hupd]
      simp only [countS, List.countP_cons]
      omega
    · have he' : lookupEntry rest id = some e := by
        simpa [lookupEntry, hp] using he
      show countS pred ((if p.1 = id then (p.1, f p.2) else p) :: updateNode rest id f) +
        _ = _
      rw [if_neg hp]
      simp only [countS, List.countP_cons]
      have hih := ih hnd.2 he'
      simp only [countS] at hih
      omega

/-- The bookkeeping facts that tie the statistics counters to the node map:
distinct keys, keys below `next_id`, `nodes_open` equals the number of
`PENDING` nodes, `nodes_created` equals the number of registered nodes, and
no node is in the transient `PROCESSING` state. -/
def statsInvAux (t : BPTree) : Prop :=
  (t.nodes.map Prod.fst).Nodup ∧
  (∀ p ∈ t.nodes, p.1 < t.next_id) ∧
  t.stats.nodes_open = (countS isPending t.nodes : Int) ∧
  t.stats.nodes_created = (t.nodes.length : Int) ∧
  (∀ p ∈ t.nodes, p.2.status ≠ NodeStatus.PROCESSING)

theorem countS_updateNode_statuspres {f : BPNode → BPNode}
    (hst : ∀ n, (f n).status = n.status) (pred : NodeStatus → Bool)
    (l : List (Int × BPNode)) (id : Int) :
    countS pred (updateNode l id f) = countS pred l := by
  rw [updateNode_eq_map]
  refine countS_map_status ?_ pred l
  intro p
  by_cases hp : p.1 = id <;> simp [hp, hst]

theorem updateNode_length (l : List (Int × BPNode)) (id : Int) (f : BPNode → BPNode) :
    (updateNode l id f).length = l.length := by
  rw [updateNode_eq_map, List.length_map]

theorem mem_updateNode {l : List (Int × BPNode)} {id : Int} {f : BPNode → BPNode}
    {p : Int × BPNode} (hp : p ∈ updateNode l id f) :
    ∃ p0 ∈ l, p = if p0.1 = id then (p0.1, f p0.2) else p0 := by
  rw [updateNode_eq_map] at hp
  rcases List.mem_map.mp hp with ⟨p0, hp0, hF⟩
  exact ⟨p0, hp0, hF.symm⟩

/-- Status-preserving in-place node edits keep every statistics fact. -/
theorem statsInvAux_updateNode_statuspres (t : BPTree) (id : Int)
    {f : BPNode → BPNode} (hst : ∀ n, (f n).status = n.status)
    (h : statsInvAux t) :
    statsInvAux { t with nodes := updateNode t.nodes id f } := by
  obtain ⟨hnd, hbd, hopen, hcr, hnp⟩ := h
  refine ⟨?_, ?_, ?_, ?_, ?_⟩
  · show ((updateNode t.nodes id f).map Prod.fst).Nodup
    rw [updateNode_keys]
    exact hnd
  · intro p hp
    rcases mem_updateNode hp with ⟨p0, hp0, hpeq⟩
    have : p.1 = p0.1 := by
      rw [hpeq]; by_cases h0 : p0.1 = id <;> simp [h0]
    rw [this]
    exact hbd p0 hp0
  · show t.stats.nodes_open = _
    rw [hopen, countS_updateNode_statuspres hst]
  · show t.stats.nodes_created = _
    rw [hcr, updateNode_length]
  · intro p hp
    rcases mem_updateNode hp with ⟨p0, hp0, hpeq⟩
    have : p.2.status = p0.2.status := by
      rw [hpeq]; by_cases h0 : p0.1 = id <;> simp [h0, hst]
    rw [this]
    exact hnp p0 hp0

theorem statsInvAux_create_child (t : BPTree) (pid : Int) (d : BranchingDecision)
    (h : statsInvAux t) : statsInvAux (t.create_child pid d) := by
  obtain ⟨hnd, hbd, hopen, hcr, hnp⟩ := h
  unfold BPTree.create_child
  cases hl : lookupNode t.nodes pid with
  | none => exact ⟨hnd, hbd, hopen, hcr, hnp⟩
  | some parent =>
    simp only
    set fch : BPNode → BPNode :=
      fun p => { p with children := p.children ++ [t.next_id] } with hfch
    have hstf : ∀ n, (fch n).status = n.status := fun n => rfl
    have hfresh : t.next_id ∉ t.nodes.map Prod.fst := by
      intro hm
      rcases List.mem_map.mp hm with ⟨p0, hp0, hk⟩
      have := hbd p0 hp0
      omega
    refine ⟨?_, ?_, ?_, ?_, ?_⟩
    · show ((updateNode t.nodes pid fch ++ _).map Prod.fst).Nodup
      rw [List.map_append, updateNode_keys]
      rw [List.nodup_append]
      refine ⟨hnd, List.nodup_singleton _, ?_⟩
      intro a ha hb
      simp only [List.map_cons, List.map_nil, List.mem_singleton] at hb
      rw [hb] at ha
      exact hfresh ha
    · intro p hp
      rcases List.mem_append.mp hp with hp | hp
      · rcases mem_updateNode hp with ⟨p0, hp0, hpeq⟩
        have hk : p.1 = p0.1 := by
          rw [hpeq]; by_cases h0 : p0.1 = pid <;> simp [h0]
        show p.1 < t.next_id + 1
        rw [hk]
        have := hbd p0 hp0
        omega
      · have : p.1 = t.next_id := by
          simp only [List.mem_singleton] at hp
          rw [hp]
        show p.1 < t.next_id + 1
        omega
    · show t.stats.nodes_open + 1 = _
      rw [countS, List.countP_append, ← countS, ← countS,
        countS_updateNode_statuspres hstf]
      have hchild : countS isPending
          [(t.next_id,
            { BPNode.mkChild t.next_id pid (parent.depth + 1) d with
              inherited_decisions := parent.all_decisions,
              lower_bound := parent.lower_bound,
              upper_bound := parent.upper_bound })] = 1 := rfl
      rw [hchild, hopen]
      push_cast
      ring
    · show t.stats.nodes_created + 1 = _
      rw [List.length_append, updateNode_length, hcr]
      simp only [List.length_singleton]
      push_cast
      ring
    · intro p hp
      rcases List.mem_append.mp hp with hp | hp
      · rcases mem_updateNode hp with ⟨p0, hp0, hpeq⟩
        have : p.2.status = p0.2.status := by
          rw [hpeq]; by_cases h0 : p0.1 = pid <;> simp [h0, hstf]
        rw [this]
        exact hnp p0 hp0
      · simp only [List.mem_singleton] at hp
        rw [hp]
        intro hc
        exact absurd hc (by simp [BPNode.mkChild])

theorem try_prune_true_status {n : BPNode} {g : D}
    (h : (n.try_prune_by_bound g).1 = true) :
    (n.try_prune_by_bound g).2.status = NodeStatus.PRUNED_BOUND := by
  unfold BPNode.try_prune_by_bound at h ⊢
  split at h
  · split
    · rfl
    · simp_all
  · simp at h

theorem pruneHits_pending {gub : D} {p : Int × BPNode}
    (h : BPTree.pruneHits gub p = true) : p.2.status = NodeStatus.PENDING := by
  unfold BPTree.pruneHits at h
  rw [Bool.and_eq_true] at h
  simpa [BPNode.can_be_explored] using h.1

theorem create_child_lookup_status (t : BPTree) (pid : Int) (d : BranchingDecision)
    (i : Int) {n : BPNode} (hfind : lookupNode t.nodes i = some n) :
    ∃ n', lookupNode (t.create_child pid d).nodes i = some n' ∧
      n'.status = n.status := by
  unfold BPTree.create_child
  cases hl : lookupNode t.nodes pid with
  | none => exact ⟨n, hfind, rfl⟩
  | some parent =>
    simp only
    set fch : BPNode → BPNode :=
      fun p => { p with children := p.children ++ [t.next_id] } with hfch
    rw [lookupNode_eq_entry] at hfind
    rcases Option.map_eq_some'.mp hfind with ⟨e, he, he2⟩
    have hent : lookupEntry (updateNode t.nodes pid fch) i =
        some (if e.1 = pid then (e.1, fch e.2) else e) := by
      rw [updateNode_eq_map,
        lookupEntry_map (fun q => by by_cases hq : q.1 = pid <;> simp [hq]), he]
      by_cases hq : e.1 = pid <;> simp [hq]
    refine ⟨(if e.1 = pid then (e.1, fch e.2) else e).2, ?_, ?_⟩
    · rw [lookupNode_eq_entry, lookupEntry_append_left _ hent]
      rfl
    · by_cases hq : e.1 = pid <;> simp [hq, ← he2]

theorem statsInvAux_create_children_fold (pid : Int) (ds : List BranchingDecision) :
    ∀ t : BPTree, statsInvAux t →
      (∃ p, lookupNode t.nodes pid = some p ∧ p.status = NodeStatus.PENDING) →
      statsInvAux (ds.foldl (fun acc d => acc.create_child pid d) t) ∧
      (∃ p, lookupNode (ds.foldl (fun acc d => acc.create_child pid d) t).nodes pid
        = some p ∧ p.status = NodeStatus.PENDING) := by
  induction ds with
  | nil => intro t h hp; exact ⟨h, hp⟩
  | cons d ds ih =>
    intro t h hp
    rcases hp with ⟨p, hfind, hst⟩
    rcases create_child_lookup_status t pid d pid hfind with ⟨p', hf', hs'⟩
    exact ih (t.create_child pid d) (statsInvAux_create_child t pid d h)
      ⟨p', hf', hs'.trans hst⟩

theorem create_children_eq (t : BPTree) (pid : Int) (ds : List BranchingDecision) :
    t.create_children pid ds =
      { ds.foldl (fun acc d => acc.create_child pid d) t with
        nodes := updateNode (ds.foldl (fun acc d => acc.create_child pid d) t).nodes
          pid (fun p => { p with status := NodeStatus.BRANCHED }),
        stats := { (ds.foldl (fun acc d => acc.create_child pid d) t).stats with
          nodes_branched :=
            (ds.foldl (fun acc d => acc.create_child pid d) t).stats.nodes_branched + 1,
          nodes_open :=
            (ds.foldl (fun acc d => acc.create_child pid d) t).stats.nodes_open - 1 } } :=
  rfl

theorem statsInvAux_create_children (t : BPTree) (pid : Int)
    (ds : List BranchingDecision) (p : BPNode)
    (hp : lookupNode t.nodes pid = some p) (hex : p.can_be_explored = true)
    (h : statsInvAux t) : statsInvAux (t.create_children pid ds) := by
  have hpend : p.status = NodeStatus.PENDING := by
    simpa [BPNode.can_be_explored] using hex
  rcases statsInvAux_create_children_fold pid ds t h ⟨p, hp, hpend⟩ with
    ⟨⟨hnd, hbd, hopen, hcr, hnp⟩, ⟨p1, hp1, hs1⟩⟩
  rw [create_children_eq]
  set t1 := ds.foldl (fun acc d => acc.create_child pid d) t with ht1
  rw [lookupNode_eq_entry] at hp1
  rcases Option.map_eq_some'.mp hp1 with ⟨e, he, he2⟩
  refine ⟨?_, ?_, ?_, ?_, ?_⟩
  · show ((updateNode t1.nodes pid
      (fun q => { q with status := NodeStatus.BRANCHED })).map Prod.fst).Nodup
    rw [updateNode_keys]
    exact hnd
  · intro q hq
    have hq2 : q ∈ updateNode t1.nodes pid
        (fun m => { m with status := NodeStatus.BRANCHED }) := hq
    rcases mem_updateNode hq2 with ⟨q0, hq0, hqeq⟩
    have hk : q.1 = q0.1 := by
      rw [hqeq]; by_cases h0 : q0.1 = pid <;> simp [h0]
    show q.1 < t1.next_id
    rw [hk]
    exact hbd q0 hq0
  · show t1.stats.nodes_open - 1 = _
    have hcount := countS_updateNode hnd he isPending
      (fun q => { q with status := NodeStatus.BRANCHED })
    have hpe : isPending e.2.status = true := by
      rw [he2, hs1]; rfl
    have hbr : isPending
        ({ e.2 with status := NodeStatus.BRANCHED } : BPNode).status = false := rfl
    rw [hpe, hbr] at hcount
    simp at hcount
    rw [hopen]
    push_cast
    omega
  · show t1.stats.nodes_created = _
    rw [hcr, updateNode_length]
  · intro q hq
    have hq2 : q ∈ updateNode t1.nodes pid
        (fun m => { m with status := NodeStatus.BRANCHED }) := hq
    rcases mem_updateNode hq2 with ⟨q0, hq0, hqeq⟩
    by_cases h0 : q0.1 = pid
    · rw [hqeq]
      simp [h0]
    · rw [hqeq]
      simp only [h0, if_false, ite_false]
      exact hnp q0 hq0

theorem mark_processed_nodes_some (t : BPTree) (id : Int) (s : NodeStatus)
    {n : BPNode} (hn : lookupNode t.nodes id = some n) :
    (t.mark_processed id s).nodes =
      updateNode t.nodes id (fun m => { m with status := s }) := by
  unfold BPTree.mark_processed
  rw [hn]

theorem mark_processed_next_id (t : BPTree) (id : Int) (s : NodeStatus) :
    (t.mark_processed id s).next_id = t.next_id := by
  unfold BPTree.mark_processed
  cases hl : lookupNode t.nodes id with
  | none => rfl
  | some n => rfl

theorem mark_processed_stats_created (t : BPTree) (id : Int) (s : NodeStatus) :
    (t.mark_processed id s).stats.nodes_created = t.stats.nodes_created := by
  unfold BPTree.mark_processed
  cases hl : lookupNode t.nodes id with
  | none => rfl
  | some n =>
    show (match s with
      | NodeStatus.PRUNED_BOUND => _
      | NodeStatus.PRUNED_INFEASIBLE => _
      | NodeStatus.INTEGER => _
      | _ => _ : TreeStats).nodes_created = t.stats.nodes_created
    cases s <;>
      (show (if n.status = NodeStatus.PENDING ∨ n.status = NodeStatus.PROCESSING
          then _ else t.stats : TreeStats).nodes_created = t.stats.nodes_created
       split <;> rfl)

theorem mark_processed_stats_open (t : BPTree) (id : Int) (s : NodeStatus)
    {n : BPNode} (hn : lookupNode t.nodes id = some n)
    (hold : n.status = NodeStatus.PENDING) (hb : s ≠ NodeStatus.BRANCHED) :
    (t.mark_processed id s).stats.nodes_open = t.stats.nodes_open - 1 := by
  unfold BPTree.mark_processed
  rw [hn]
  have hcond : (n.status = NodeStatus.PENDING ∨ n.status = NodeStatus.PROCESSING) :=
    Or.inl hold
  cases s with
  | BRANCHED => exact absurd rfl hb
  | PRUNED_BOUND => simp [hcond]
  | PRUNED_INFEASIBLE => simp [hcond]
  | INTEGER => simp [hcond]
  | PENDING => simp [hcond]
  | PROCESSING => simp [hcond]
  | FATHOMED => simp [hcond]

theorem statsInvAux_mark_processed (t : BPTree) (id : Int) (s : NodeStatus)
    (n : BPNode) (hn : lookupNode t.nodes id = some n)
    (hex : n.can_be_explored = true) (hs : s.isTerminal = true)
    (hb : s ≠ NodeStatus.BRANCHED) (h : statsInvAux t) :
    statsInvAux (t.mark_processed id s) := by
  obtain ⟨hnd, hbd, hopen, hcr, hnp⟩ := h
  have hpend : n.status = NodeStatus.PENDING := by
    simpa [BPNode.can_be_explored] using hex
  have hsp : s ≠ NodeStatus.PENDING := by
    cases s <;> simp_all [NodeStatus.isTerminal]
  have hspr : s ≠ NodeStatus.PROCESSING := by
    cases s <;> simp_all [NodeStatus.isTerminal]
  have hn0 := hn
  rw [lookupNode_eq_entry] at hn0
  rcases Option.map_eq_some'.mp hn0 with ⟨e, he, he2⟩
  refine ⟨?_, ?_, ?_, ?_, ?_⟩
  · rw [mark_processed_nodes_some t id s hn, updateNode_keys]
    exact hnd
  · intro q hq
    rw [mark_processed_nodes_some t id s hn] at hq
    rcases mem_updateNode hq with ⟨q0, hq0, hqeq⟩
    have hk : q.1 = q0.1 := by
      rw [hqeq]; by_cases h0 : q0.1 = id <;> simp [h0]
    rw [mark_processed_next_id, hk]
    exact hbd q0 hq0
  · rw [mark_processed_stats_open t id s hn hpend hb,
      mark_processed_nodes_some t id s hn]
    have hcount := countS_updateNode hnd he isPending
      (fun m => { m with status := s })
    have hpe : isPending e.2.status = true := by
      rw [he2, hpend]; rfl
    have hst2 : isPending ({ e.2 with status := s } : BPNode).status = false := by
      simp [isPending, hsp]
    rw [hpe, hst2] at hcount
    simp at hcount
    rw [hopen]
    omega
  · rw [mark_processed_stats_created, mark_processed_nodes_some t id s hn,
      updateNode_length]
    exact hcr
  · intro q hq
    rw [mark_processed_nodes_some t id s hn] at hq
    rcases mem_updateNode hq with ⟨q0, hq0, hqeq⟩
    by_cases h0 : q0.1 = id
    · rw [hqeq]
      simp [h0, hspr]
    · rw [hqeq]
      simp only [h0, if_false, ite_false]
      exact hnp q0 hq0

theorem pruneHits_prune_true {gub : D} {p : Int × BPNode}
    (h : BPTree.pruneHits gub p = true) : (p.2.try_prune_by_bound gub).1 = true := by
  unfold BPTree.pruneHits at h
  rw [Bool.and_eq_true] at h
  exact h.2

theorem map_keyfix_keys {F : Int × BPNode → Int × BPNode}
    (hkey : ∀ p, (F p).1 = p.1) (l : List (Int × BPNode)) :
    (l.map F).map Prod.fst = l.map Prod.fst := by
  induction l with
  | nil => rfl
  | cons p rest ih => simp [hkey p, ih]

theorem prune_by_bound_eq (t : BPTree) :
    t.prune_by_bound.2 =
      { t with
        nodes := t.nodes.map
          (fun p => if BPTree.pruneHits t.global_upper_bound p then
              (p.1, (p.2.try_prune_by_bound t.global_upper_bound).2)
            else p),
        stats := { t.stats with
          nodes_pruned_bound := t.stats.nodes_pruned_bound +
            (t.nodes.countP (BPTree.pruneHits t.global_upper_bound) : Int),
          nodes_open := t.stats.nodes_open -
            (t.nodes.countP (BPTree.pruneHits t.global_upper_bound) : Int) } } :=
  rfl

theorem countS_pending_after_prune (gub : D) (l : List (Int × BPNode)) :
    countS isPending (l.map
        (fun p => if BPTree.pruneHits gub p then
            (p.1, (p.2.try_prune_by_bound gub).2)
          else p)) + l.countP (BPTree.pruneHits gub)
      = countS isPending l := by
  have hpt : ∀ p : Int × BPNode,
      (if isPending ((if BPTree.pruneHits gub p then
          (p.1, (p.2.try_prune_by_bound gub).2)
        else p) : Int × BPNode).2.status then (1 : Nat) else 0)
      + (if BPTree.pruneHits gub p then (1 : Nat) else 0)
      = (if isPending p.2.status then 1 else 0) := by
    intro p
    by_cases hp : BPTree.pruneHits gub p = true
    · have hpend := pruneHits_pending hp
      have hto := try_prune_true_status (pruneHits_prune_true hp)
      rw [if_pos hp, if_pos hp]
      simp [hto, hpend, isPending]
    · rw [if_neg hp, if_neg hp]
      simp
  induction l with
  | nil => rfl
  | cons p rest ih =>
    simp only [List.map_cons, countS, List.countP_cons] at ih ⊢
    have hh := hpt p
    omega

theorem statsInvAux_prune_by_bound (t : BPTree) (h : statsInvAux t) :
    statsInvAux t.prune_by_bound.2 := by
  obtain ⟨hnd, hbd, hopen, hcr, hnp⟩ := h
  rw [prune_by_bound_eq]
  have hkey : ∀ p : Int × BPNode,
      ((fun p => if BPTree.pruneHits t.global_upper_bound p then
          (p.1, (p.2.try_prune_by_bound t.global_upper_bound).2)
        else p) p).1 = p.1 := by
    intro p
    by_cases hp : BPTree.pruneHits t.global_upper_bound p = true <;> simp [hp]
  refine ⟨?_, ?_, ?_, ?_, ?_⟩
  · show ((t.nodes.map _).map Prod.fst).Nodup
    rw [map_keyfix_keys hkey]
    exact hnd
  · intro q hq
    rcases List.mem_map.mp hq with ⟨q0, hq0, hF⟩
    have hk : q.1 = q0.1 := by rw [← hF]; exact hkey q0
    show q.1 < t.next_id
    rw [hk]
    exact hbd q0 hq0
  · show t.stats.nodes_open - _ = _
    have hcount := countS_pending_after_prune t.global_upper_bound t.nodes
    rw [hopen]
    push_cast
    omega
  · show t.stats.nodes_created = _
    rw [List.length_map]
    exact hcr
  · intro q hq
    rcases List.mem_map.mp hq with ⟨q0, hq0, hF⟩
    by_cases hp : BPTree.pruneHits t.global_upper_bound q0 = true
    · have hto := try_prune_true_status (pruneHits_prune_true hp)
      rw [← hF]
      simp [hp, hto]
    · rw [← hF]
      simp only [hp, if_false, ite_false, Bool.false_eq_true]
      exact hnp q0 hq0

theorem statsInvAux_congr {t t' : BPTree} (hn : t'.nodes = t.nodes)
    (hx : t'.next_id = t.next_id)
    (ho : t'.stats.nodes_open = t.stats.nodes_open)
    (hc : t'.stats.nodes_created = t.stats.nodes_created)
    (h : statsInvAux t) : statsInvAux t' := by
  obtain ⟨h1, h2, h3, h4, h5⟩ := h
  refine ⟨?_, ?_, ?_, ?_, ?_⟩
  · rw [hn]; exact h1
  · rw [hn, hx]; exact h2
  · rw [hn, ho]; exact h3
  · rw [hn, hc]; exact h4
  · rw [hn]; exact h5

theorem update_bounds_next_id (t : BPTree) (n : BPNode) :
    (t.update_bounds n).2.next_id = t.next_id := by
  unfold BPTree.update_bounds; split <;> rfl

theorem update_bounds_stats_open (t : BPTree) (n : BPNode) :
    (t.update_bounds n).2.stats.nodes_open = t.stats.nodes_open := by
  unfold BPTree.update_bounds; split <;> rfl

theorem update_bounds_stats_created (t : BPTree) (n : BPNode) :
    (t.update_bounds n).2.stats.nodes_created = t.stats.nodes_created := by
  unfold BPTree.update_bounds; split <;> rfl

theorem set_incumbent_next_id (t : BPTree) (n : Option BPNode) :
    (t.set_incumbent n).next_id = t.next_id := by
  cases n <;> rfl

theorem set_incumbent_stats_open (t : BPTree) (n : Option BPNode) :
    (t.set_incumbent n).stats.nodes_open = t.stats.nodes_open := by
  cases n <;> rfl

theorem set_incumbent_stats_created (t : BPTree) (n : Option BPNode) :
    (t.set_incumbent n).stats.nodes_created = t.stats.nodes_created := by
  cases n <;> rfl

theorem length_eq_pending_add_terminal (l : List (Int × BPNode))
    (h : ∀ p ∈ l, p.2.status ≠ NodeStatus.PROCESSING) :
    l.length = countS isPending l + countS NodeStatus.isTerminal l := by
  induction l with
  | nil => rfl
  | cons p rest ih =>
    have hp := h p (List.mem_cons_self p rest)
    have hr := ih (fun q hq => h q (List.mem_cons_of_mem p hq))
    simp only [List.length_cons, countS, List.countP_cons] at hr ⊢
    have hhead : (if isPending p.2.status then (1 : Nat) else 0)
        + (if p.2.status.isTerminal then (1 : Nat) else 0) = 1 := by
      cases hs : p.2.status with
      | PROCESSING => exact absurd hs hp
      | PENDING => rfl
      | BRANCHED => rfl
      | PRUNED_BOUND => rfl
      | PRUNED_INFEASIBLE => rfl
      | INTEGER => rfl
      | FATHOMED => rfl
    omega

/-- C2 amended: the accounting identity `nodes_open + #terminal = nodes_created`
holds in every tree state reachable when the status-changing operations are
used with the discipline the counters assume: `mark_processed` moves only a
still-explorable node, to a terminal status other than `Branched`
(`Branched` arises only through `create_children`, which itself is applied
only to a still-explorable parent); all other public operations, including
the external solver's bound/solution setters, are unrestricted.  The
unrestricted claim is refuted by `C2_processing_breaks_accounting`. -/
theorem C2_amended_stats_accounting (t : BPTree) (h : StatsReached t) :
    t.stats.nodes_open + (countS NodeStatus.isTerminal t.nodes : Int) =
      t.stats.nodes_created := by
  have haux : statsInvAux t := by
    induction h with
    | new m =>
      refine ⟨?_, ?_, ?_, ?_, ?_⟩ <;>
        simp [BPTree.new, BPNode.mkRoot, countS, isPending]
    | create_child h pid d ih => exact statsInvAux_create_child _ pid d ih
    | create_children h pid ds p hp hex ih =>
      exact statsInvAux_create_children _ pid ds p hp hex ih
    | mark_processed h id s n hn hex hs hb ih =>
      exact statsInvAux_mark_processed _ id s n hn hex hs hb ih
    | prune_by_bound h ih => exact statsInvAux_prune_by_bound _ ih
    | update_bounds h n ih =>
      exact statsInvAux_congr (update_bounds_nodes _ n) (update_bounds_next_id _ n)
        (update_bounds_stats_open _ n) (update_bounds_stats_created _ n) ih
    | set_incumbent h n ih =>
      exact statsInvAux_congr (set_incumbent_nodes _ n) (set_incumbent_next_id _ n)
        (set_incumbent_stats_open _ n) (set_incumbent_stats_created _ n) ih
    | set_global_lower_bound h v ih => exact statsInvAux_congr rfl rfl rfl rfl ih
    | set_global_upper_bound h v ih => exact statsInvAux_congr rfl rfl rfl rfl ih
    | set_node_lower_bound h id v ih =>
      refine statsInvAux_updateNode_statuspres _ id ?_ ih
      intro m; rfl
    | set_node_upper_bound h id v ih =>
      refine statsInvAux_updateNode_statuspres _ id ?_ ih
      intro m; rfl
    | set_node_lp_value h id v ih =>
      refine statsInvAux_updateNode_statuspres _ id ?_ ih
      intro m; rfl
    | set_node_is_integer h id b ih =>
      refine statsInvAux_updateNode_statuspres _ id ?_ ih
      intro m; rfl
    | set_node_solution h id sol ih =>
      refine statsInvAux_updateNode_statuspres _ id ?_ ih
      intro m; rfl
    | set_node_solution_columns h id cols ih =>
      refine statsInvAux_updateNode_statuspres _ id ?_ ih
      intro m; rfl
  obtain ⟨_, _, hopen, hcr, hnp⟩ := haux
  have hlen := length_eq_pending_add_terminal t.nodes hnp
  rw [hopen, hcr]
  omega

/-- C2 counterexample: `mark_processed(root, PROCESSING)` is a public
operation on a fresh tree, yet afterwards `nodes_open = 0` while no node is
terminal and `nodes_created = 1`, so
`nodes_open + #terminal = nodes_created` fails in this reachable state. -/
theorem C2_processing_breaks_accounting :
    Reached ((BPTree.new true).mark_processed 0 NodeStatus.PROCESSING) ∧
    ¬ (((BPTree.new true).mark_processed 0 NodeStatus.PROCESSING).stats.nodes_open +
        (countS NodeStatus.isTerminal
          ((BPTree.new true).mark_processed 0 NodeStatus.PROCESSING).nodes : Int) =
        ((BPTree.new true).mark_processed 0 NodeStatus.PROCESSING).stats.nodes_created) :=
  ⟨Reached.mark_processed (Reached.new true) 0 NodeStatus.PROCESSING, by decide⟩

/-- Concrete disciplined run for the C2 witness: fathom the root of a fresh
tree through `mark_processed`. -/
theorem C2_amended_stats_accounting_witness :
    ((BPTree.new true).mark_processed 0 NodeStatus.FATHOMED).stats.nodes_open +
      (countS NodeStatus.isTerminal
        ((BPTree.new true).mark_processed 0 NodeStatus.FATHOMED).nodes : Int) =
      ((BPTree.new true).mark_processed 0 NodeStatus.FATHOMED).stats.nodes_created :=
  C2_amended_stats_accounting _
    (StatsReached.mark_processed (StatsReached.new true) 0 NodeStatus.FATHOMED
      BPNode.mkRoot (by decide) (by decide) (by decide) (by decide))

/-!
## Order facts for non-`nan` doubles, and the priority-queue top
-/

theorem D.lt_imp_le {a b : D} (h : D.lt a b = true) : D.le a b = true := by
  cases a <;> cases b <;>
    first
    | rfl
    | (simp [D.lt] at h
       done)
    | (simp only [D.lt, decide_eq_true_eq] at h
       simp only [D.le, decide_eq_true_eq]
       exact le_of_lt h)

theorem D.not_lt_imp_le {a b : D} (ha : a ≠ D.nan) (hb : b ≠ D.nan)
    (h : D.lt a b = false) : D.le b a = true := by
  cases a <;> cases b <;>
    first
    | rfl
    | (exact absurd rfl ha)
    | (exact absurd rfl hb)
    | (simp [D.lt] at h
       done)
    | (simp only [D.lt, decide_eq_false_iff_not] at h
       simp only [D.le, decide_eq_true_eq]
       exact le_of_not_lt h)

theorem D.le_trans' {a b c : D} (h1 : D.le a b = true) (h2 : D.le b c = true) :
    D.le a c = true := by
  cases a <;> cases b <;> cases c <;>
    first
    | rfl
    | (simp [D.le] at h1
       done)
    | (simp [D.le] at h2
       done)
    | (simp only [D.le, decide_eq_true_eq] at h1 h2 ⊢
       exact le_trans h1 h2)

theorem D.le_refl' {a : D} (ha : a ≠ D.nan) : D.le a a = true := by
  cases a <;> first | rfl | (exact absurd rfl ha) | (simp [D.le])

theorem D.pinf_le_imp {x : D} (h : D.le D.pinf x = true) : x = D.pinf := by
  cases x <;> simp_all [D.le]

theorem D.le_ne_nan_left {a b : D} (h : D.le a b = true) : a ≠ D.nan := by
  cases a <;> simp_all [D.le]

/-- The fold that computes `pqTop`: the result is one of the candidates, and
with respect to any relation `R` compatible with the comparator it is a
maximal element. -/
theorem pqFold_spec (before : Int → Int → Bool) {good : Int → Prop}
    {R : Int → Int → Prop}
    (h1 : ∀ a b, good a → good b → before a b = true → R a b)
    (h2 : ∀ a b, good a → good b → before a b = false → R b a)
    (h3 : ∀ a b c, good a → good b → good c → R a b → R b c → R a c) :
    ∀ (rest : List Int) (b : Int), good b → (∀ j ∈ rest, good j) →
      (rest.foldl (fun x y => if before x y then y else x) b ∈ b :: rest) ∧
      R b (rest.foldl (fun x y => if before x y then y else x) b) ∧
      (∀ j ∈ rest, R j (rest.foldl (fun x y => if before x y then y else x) b)) := by
  have hrefl : ∀ a, good a → R a a := by
    intro a ha
    cases hb : before a a with
    | true => exact h1 a a ha ha hb
    | false => exact h2 a a ha ha hb
  intro rest
  induction rest with
  | nil =>
    intro b hb _
    exact ⟨List.mem_singleton_self b, hrefl b hb, by intro j hj; simp at hj⟩
  | cons y rest ih =>
    intro b hb hr
    have hy : good y := hr y (List.mem_cons_self y rest)
    have hrest : ∀ j ∈ rest, good j := fun j hj => hr j (List.mem_cons_of_mem y hj)
    set b' : Int := if before b y then y else b with hb'
    have hgb' : good b' := by
      rw [hb']; split <;> assumption
    have hRbb' : R b b' := by
      rw [hb']
      cases hc : before b y with
      | true => simp only [if_pos]; exact h1 b y hb hy hc
      | false => simp only [hc, if_false, Bool.false_eq_true, ite_false]; exact hrefl b hb
    have hRyb' : R y b' := by
      rw [hb']
      cases hc : before b y with
      | true => simp only [if_pos]; exact hrefl y hy
      | false => simp only [hc, if_false, Bool.false_eq_true, ite_false]; exact h2 b y hb hy hc
    rcases ih b' hgb' hrest with ⟨hmem, hRb'f, hallf⟩
    have hgf : good (rest.foldl (fun x y => if before x y then y else x) b') := by
      rcases List.mem_cons.mp hmem with hm | hm
      · rw [hm]; exact hgb'
      · exact hrest _ hm
    refine ⟨?_, ?_, ?_⟩
    · show List.foldl _ _ (y :: rest) ∈ _
      simp only [List.foldl_cons]
      rw [← hb']
      rcases List.mem_cons.mp hmem with hm | hm
      · rw [hm, hb']
        split
        · exact List.mem_cons_of_mem b (List.mem_cons_self y rest)
        · exact List.mem_cons_self b (y :: rest)
      · exact List.mem_cons_of_mem b (List.mem_cons_of_mem y hm)
    · show R b (List.foldl _ _ (y :: rest))
      simp only [List.foldl_cons, ← hb']
      exact h3 b b' _ hb hgb' hgf hRbb' hRb'f
    · intro j hj
      show R j (List.foldl _ _ (y :: rest))
      simp only [List.foldl_cons, ← hb']
      rcases List.mem_cons.mp hj with hm | hm
      · rw [hm]
        exact h3 y b' _ hy hgb' hgf hRyb' hRb'f
      · exact hallf j hm

/-- `pqTop` returns a held handle that is maximal for any relation
compatible with the comparator. -/
theorem pqTop_spec (before : Int → Int → Bool) (good : Int → Prop)
    (R : Int → Int → Prop)
    (h1 : ∀ a b, good a → good b → before a b = true → R a b)
    (h2 : ∀ a b, good a → good b → before a b = false → R b a)
    (h3 : ∀ a b c, good a → good b → good c → R a b → R b c → R a c)
    {q : List Int} (hg : ∀ i ∈ q, good i) {i : Int}
    (htop : pqTop before q = some i) :
    i ∈ q ∧ ∀ j ∈ q, R j i := by
  cases q with
  | nil => simp [pqTop] at htop
  | cons b rest =>
    have hb : good b := hg b (List.mem_cons_self b rest)
    have hrest : ∀ j ∈ rest, good j := fun j hj => hg j (List.mem_cons_of_mem b hj)
    rcases pqFold_spec before h1 h2 h3 rest b hb hrest with ⟨hmem, hRb, hall⟩
    have hi : i = rest.foldl (fun x y => if before x y then y else x) b := by
      simpa [pqTop] using htop.symm
    subst hi
    refine ⟨hmem, ?_⟩
    intro j hj
    rcases List.mem_cons.mp hj with hm | hm
    · rw [hm]; exact hRb
    · exact hall j hm

theorem pqTop_isSome {q : List Int} (hq : q ≠ []) (before : Int → Int → Bool) :
    ∃ i, pqTop before q = some i := by
  cases q with
  | nil => exact absurd rfl hq
  | cons b rest => exact ⟨_, rfl⟩

theorem mem_removeFirst {l : List Int} {i j : Int} (h : j ∈ removeFirst l i) :
    j ∈ l := by
  induction l with
  | nil => simp [removeFirst] at h
  | cons x rest ih =>
    by_cases hx : x = i
    · simp only [removeFirst, hx, if_pos] at h
      exact List.mem_cons_of_mem x h
    · simp only [removeFirst, hx, ite_false] at h
      rcases List.mem_cons.mp h with hm | hm
      · rw [hm]; exact List.mem_cons_self x rest
      · exact List.mem_cons_of_mem x (ih hm)

theorem pqSelectNext_some {before : Int → Int → Bool} {σ : Int → BPNode}
    {q q2 : List Int} {i : Int}
    (h : pqSelectNext before σ q = (some i, q2)) :
    pqTop before (pqPrune σ q) = some i ∧ q2 = removeFirst (pqPrune σ q) i := by
  simp only [pqSelectNext] at h
  cases htop : pqTop before (pqPrune σ q) with
  | none =>
    rw [htop] at h
    simp at h
  | some i0 =>
    rw [htop] at h
    simp only [Prod.mk.injEq, Option.some.injEq] at h
    obtain ⟨rfl, rfl⟩ := h
    exact ⟨rfl, rfl⟩

/-- Repeated `select_next` yields handles from the working set, sorted by
any relation compatible with the comparator. -/
theorem pqDrain_spec (before : Int → Int → Bool) (σ : Int → BPNode)
    (good : Int → Prop) (R : Int → Int → Prop)
    (h1 : ∀ a b, good a → good b → before a b = true → R a b)
    (h2 : ∀ a b, good a → good b → before a b = false → R b a)
    (h3 : ∀ a b c, good a → good b → good c → R a b → R b c → R a c) :
    ∀ (n : Nat) (q : List Int), (∀ i ∈ q, good i) →
      (∀ j ∈ pqDrain before σ n q, j ∈ q) ∧
      List.Pairwise (fun a b => R b a) (pqDrain before σ n q) := by
  intro n
  induction n with
  | zero => intro q hg; exact ⟨by simp [pqDrain], by simp [pqDrain]⟩
  | succ n ih =>
    intro q hg
    rcases hsel : pqSelectNext before σ q with ⟨o, q2⟩
    cases o with
    | none => simp [pqDrain, hsel]
    | some i =>
      rcases pqSelectNext_some hsel with ⟨htop, hq2⟩
      have hgood1 : ∀ j ∈ pqPrune σ q, good j := by
        intro j hj
        exact hg j (List.mem_filter.mp hj).1
      rcases pqTop_spec before good R h1 h2 h3 hgood1 htop with ⟨hmem, hmax⟩
      have hsub2 : ∀ j ∈ q2, j ∈ pqPrune σ q := by
        intro j hj
        rw [hq2] at hj
        exact mem_removeFirst hj
      have hg2 : ∀ j ∈ q2, good j := fun j hj => hgood1 j (hsub2 j hj)
      rcases ih q2 hg2 with ⟨ihsub, ihpw⟩
      have hdrain : pqDrain before σ (n + 1) q = i :: pqDrain before σ n q2 := by
        simp [pqDrain, hsel]
      rw [hdrain]
      constructor
      · intro j hj
        rcases List.mem_cons.mp hj with hm | hm
        · rw [hm]
          exact (List.mem_filter.mp hmem).1
        · exact (List.mem_filter.mp (hsub2 j (ihsub j hm))).1
      · refine List.Pairwise.cons ?_ ihpw
        intro j hj
        exact hmax j (hsub2 j (ihsub j hj))

theorem stdMin_cases (a b : D) (ha : a ≠ D.nan) (hb : b ≠ D.nan) :
    (D.stdMin a b = a ∨ D.stdMin a b = b) ∧
    D.le (D.stdMin a b) a = true ∧ D.le (D.stdMin a b) b = true := by
  unfold D.stdMin
  cases hc : D.lt b a with
  | true =>
    rw [if_pos rfl]
    exact ⟨Or.inr rfl, D.lt_imp_le hc, D.le_refl' hb⟩
  | false =>
    rw [if_neg (by simp)]
    exact ⟨Or.inl rfl, D.le_refl' ha, D.not_lt_imp_le hb ha hc⟩

theorem foldMin_spec (σ : Int → BPNode) :
    ∀ (q : List Int) (acc : D), acc ≠ D.nan →
      (∀ i ∈ q, (σ i).lower_bound ≠ D.nan) →
      ((q.foldl (fun best i => D.stdMin best ((σ i).lower_bound)) acc = acc ∨
        ∃ i ∈ q, q.foldl (fun best i => D.stdMin best ((σ i).lower_bound)) acc
          = (σ i).lower_bound) ∧
       D.le (q.foldl (fun best i => D.stdMin best ((σ i).lower_bound)) acc) acc
          = true ∧
       (∀ j ∈ q,
          D.le (q.foldl (fun best i => D.stdMin best ((σ i).lower_bound)) acc)
            ((σ j).lower_bound) = true)) := by
  intro q
  induction q with
  | nil =>
    intro acc hacc _
    exact ⟨Or.inl rfl, D.le_refl' hacc, by intro j hj; simp at hj⟩
  | cons i rest ih =>
    intro acc hacc hnn
    have hi : (σ i).lower_bound ≠ D.nan := hnn i (List.mem_cons_self i rest)
    have hrest : ∀ j ∈ rest, (σ j).lower_bound ≠ D.nan :=
      fun j hj => hnn j (List.mem_cons_of_mem i hj)
    rcases stdMin_cases acc ((σ i).lower_bound) hacc hi with ⟨hcase, hle1, hle2⟩
    have hacc' : D.stdMin acc ((σ i).lower_bound) ≠ D.nan := by
      rcases hcase with hc | hc <;> rw [hc] <;> assumption
    rcases ih (D.stdMin acc ((σ i).lower_bound)) hacc' hrest with ⟨ihc, ihle, ihall⟩
    simp only [List.foldl_cons]
    refine ⟨?_, ?_, ?_⟩
    · rcases ihc with hc | ⟨j, hj, hcj⟩
      · rcases hcase with hc2 | hc2
        · rw [hc, hc2]
          exact Or.inl rfl
        · rw [hc, hc2]
          exact Or.inr ⟨i, List.mem_cons_self i rest, rfl⟩
      · exact Or.inr ⟨j, List.mem_cons_of_mem i hj, hcj⟩
    · exact D.le_trans' ihle hle1
    · intro j hj
      rcases List.mem_cons.mp hj with hm | hm
      · rw [hm]
        exact D.le_trans' ihle hle2
      · exact ihall j hm

/-- "a has at least the priority of b" for `DepthFirstSelector`: strictly
deeper, or equally deep with a lower-or-equal bound. -/
def dfPriorityGe (σ : Int → BPNode) (a b : Int) : Prop :=
  (σ b).depth < (σ a).depth ∨
  ((σ a).depth = (σ b).depth ∧
    D.le ((σ a).lower_bound) ((σ b).lower_bound) = true)

theorem bfCmp_true {σ : Int → BPNode} {a b : Int} (h : bfCmp σ a b = true) :
    D.le ((σ b).lower_bound) ((σ a).lower_bound) = true :=
  D.lt_imp_le h

theorem bfCmp_false {σ : Int → BPNode} {a b : Int}
    (ha : (σ a).lower_bound ≠ D.nan) (hb : (σ b).lower_bound ≠ D.nan)
    (h : bfCmp σ a b = false) :
    D.le ((σ a).lower_bound) ((σ b).lower_bound) = true :=
  D.not_lt_imp_le hb ha h

theorem dfCmp_true {σ : Int → BPNode} {a b : Int} (h : dfCmp σ a b = true) :
    dfPriorityGe σ b a := by
  by_cases hd : (σ a).depth = (σ b).depth
  · simp only [dfCmp, hd, ne_eq, not_true_eq_false, ite_false] at h
    exact Or.inr ⟨hd.symm, D.lt_imp_le h⟩
  · simp only [dfCmp, hd, ne_eq, not_false_iff, ite_true, decide_eq_true_eq] at h
    exact Or.inl h

theorem dfCmp_false {σ : Int → BPNode} {a b : Int}
    (ha : (σ a).lower_bound ≠ D.nan) (hb : (σ b).lower_bound ≠ D.nan)
    (h : dfCmp σ a b = false) : dfPriorityGe σ a b := by
  by_cases hd : (σ a).depth = (σ b).depth
  · simp only [dfCmp, hd, ne_eq, not_true_eq_false, ite_false] at h
    exact Or.inr ⟨hd, D.not_lt_imp_le hb ha h⟩
  · simp only [dfCmp, hd, ne_eq, not_false_iff, ite_true,
      decide_eq_false_iff_not] at h
    refine Or.inl ?_
    omega

theorem dfPriorityGe_trans {σ : Int → BPNode} {a b c : Int}
    (h1 : dfPriorityGe σ b a) (h2 : dfPriorityGe σ c b) : dfPriorityGe σ c a := by
  rcases h1 with h1 | ⟨h1d, h1l⟩
  · rcases h2 with h2 | ⟨h2d, h2l⟩
    · exact Or.inl (lt_trans h1 h2)
    · refine Or.inl ?_
      omega
  · rcases h2 with h2 | ⟨h2d, h2l⟩
    · refine Or.inl ?_
      omega
    · exact Or.inr ⟨by omega, D.le_trans' h2l h1l⟩

/-- C5 counterexample: a handle inserted while its node was explorable, whose
node has since been marked `BRANCHED`, is still used by
`BestFirstSelector::best_bound`: the call returns the stale node's
`lower_bound = 3` although no explorable handle is held, where the claim
requires `+∞`. -/
def C5exPending : Int → BPNode :=
  fun _ => { BPNode.mkRoot with lower_bound := D.fin 3 }

/-- The same handles after the node was marked `BRANCHED` externally. -/
def C5exBranched : Int → BPNode :=
  fun _ =>
    { BPNode.mkRoot with
      lower_bound := D.fin 3
      status := NodeStatus.BRANCHED }

theorem C5_stale_handle_best_bound :
    pqAdd C5exPending [] 0 = [0] ∧
    (C5exBranched 0).can_be_explored = false ∧
    bfBestBound C5exBranched [0] = D.fin 3 ∧
    dfBestBound C5exBranched [0] = D.fin 3 ∧
    D.fin 3 ≠ D.pinf := by
  refine ⟨rfl, rfl, rfl, by decide, by decide⟩

/-- C5 amended: `best_bound()` ignores explorability entirely: it returns
`+∞` exactly when the selector holds no handles at all, and otherwise (for
working sets whose bounds are not NaN and are unchanged since insertion)
the minimum `lower_bound` over every handle currently held, stale or not —
for both `BestFirstSelector` and `DepthFirstSelector`. -/
theorem C5_amended_best_bound (σ : Int → BPNode) (q : List Int)
    (hnn : ∀ i ∈ q, (σ i).lower_bound ≠ D.nan) :
    (q = [] → bfBestBound σ q = D.pinf ∧ dfBestBound σ q = D.pinf) ∧
    (q ≠ [] →
      (∃ i ∈ q, bfBestBound σ q = (σ i).lower_bound) ∧
      (∀ j ∈ q, D.le (bfBestBound σ q) ((σ j).lower_bound) = true) ∧
      (∃ i ∈ q, dfBestBound σ q = (σ i).lower_bound) ∧
      (∀ j ∈ q, D.le (dfBestBound σ q) ((σ j).lower_bound) = true)) := by
  constructor
  · intro hq
    rw [hq]
    exact ⟨rfl, rfl⟩
  · intro hq
    rcases pqTop_isSome hq (bfCmp σ) with ⟨i, htop⟩
    have hR := pqTop_spec (bfCmp σ)
      (fun i => (σ i).lower_bound ≠ D.nan)
      (fun a b => D.le ((σ b).lower_bound) ((σ a).lower_bound) = true)
      (fun a b _ _ h => bfCmp_true h)
      (fun a b ha hb h => bfCmp_false ha hb h)
      (fun a b c _ _ _ hab hbc => D.le_trans' hbc hab)
      hnn htop
    have hbf : bfBestBound σ q = (σ i).lower_bound := by
      simp [bfBestBound, htop]
    have hdf : dfBestBound σ q =
        q.foldl (fun best j => D.stdMin best ((σ j).lower_bound)) D.pinf := by
      unfold dfBestBound
      rw [if_neg (by simp [hq])]
    rcases foldMin_spec σ q D.pinf (by intro hc; cases hc) hnn with
      ⟨hfc, hfacc, hfall⟩
    refine ⟨⟨i, hR.1, hbf⟩, ?_, ?_, ?_⟩
    · intro j hj
      rw [hbf]
      exact hR.2 j hj
    · rcases hfc with hc | ⟨j, hj, hcj⟩
      · cases q with
        | nil => exact absurd rfl hq
        | cons j0 rest =>
          refine ⟨j0, List.mem_cons_self j0 rest, ?_⟩
          rw [hdf, hc]
          have := hfall j0 (List.mem_cons_self j0 rest)
          rw [hc] at this
          exact (D.pinf_le_imp this).symm
      · exact ⟨j, hj, by rw [hdf]; exact hcj⟩
    · intro j hj
      rw [hdf]
      exact hfall j hj

/-- Concrete working set for the C5 witness: two pending handles with
bounds 5 and 7. -/
def C5wExσ : Int → BPNode :=
  fun i =>
    if i = 0 then { BPNode.mkRoot with lower_bound := D.fin 5 }
    else { BPNode.mkRoot with lower_bound := D.fin 7 }

theorem C5_amended_best_bound_witness :
    (∃ i ∈ ([0, 1] : List Int),
      bfBestBound C5wExσ [0, 1] = (C5wExσ i).lower_bound) ∧
    (∀ j ∈ ([0, 1] : List Int),
      D.le (bfBestBound C5wExσ [0, 1]) ((C5wExσ j).lower_bound) = true) ∧
    (∃ i ∈ ([0, 1] : List Int),
      dfBestBound C5wExσ [0, 1] = (C5wExσ i).lower_bound) ∧
    (∀ j ∈ ([0, 1] : List Int),
      D.le (dfBestBound C5wExσ [0, 1]) ((C5wExσ j).lower_bound) = true) :=
  (C5_amended_best_bound C5wExσ [0, 1] (by decide)).2 (by decide)

/-- The working set of scenario E4: three pending nodes with lower bounds
70, 50 and 60 (ids 0, 1, 2). -/
def C6exσ : Int → BPNode :=
  fun i =>
    if i = 0 then { BPNode.mkRoot with lower_bound := D.fin 70 }
    else if i = 1 then { BPNode.mkRoot with lower_bound := D.fin 50 }
    else { BPNode.mkRoot with lower_bound := D.fin 60 }

/-- The successive `select_next` calls of scenario E4. -/
def C6step1 : Option Int × List Int := bfSelectNext C6exσ [0, 1, 2]

def C6step2 : Option Int × List Int := bfSelectNext C6exσ C6step1.2

def C6step3 : Option Int × List Int := bfSelectNext C6exσ C6step2.2

/-- C6: on a static all-explorable working set with non-NaN bounds, the
bounds of the nodes returned by repeated `BestFirstSelector::select_next`
are non-decreasing; concretely, from bounds 70, 50, 60 the selections carry
bounds 50, 60, 70, after which the selector is empty and `best_bound()` is
`+∞`. -/
theorem C6_best_first_nondecreasing (σ : Int → BPNode) (q : List Int)
    (_hex : ∀ i ∈ q, (σ i).can_be_explored = true)
    (hnn : ∀ i ∈ q, (σ i).lower_bound ≠ D.nan) :
    List.Pairwise (fun a b =>
        D.le ((σ a).lower_bound) ((σ b).lower_bound) = true) (bfRunAll σ q) ∧
    ((bfRunAll C6exσ [0, 1, 2]).map (fun i => (C6exσ i).lower_bound)
        = [D.fin 50, D.fin 60, D.fin 70] ∧
      C6step3.1 = some 0 ∧ C6step3.2 = [] ∧
      bfBestBound C6exσ C6step3.2 = D.pinf) := by
  constructor
  · exact (pqDrain_spec (bfCmp σ) σ (fun i => (σ i).lower_bound ≠ D.nan)
      (fun a b => D.le ((σ b).lower_bound) ((σ a).lower_bound) = true)
      (fun a b _ _ h => bfCmp_true h)
      (fun a b ha hb h => bfCmp_false ha hb h)
      (fun a b c _ _ _ hab hbc => D.le_trans' hbc hab)
      q.length q hnn).2
  · exact ⟨by decide, by decide, by decide, rfl⟩

theorem C6_best_first_nondecreasing_witness :
    List.Pairwise (fun a b =>
      D.le ((C6exσ a).lower_bound) ((C6exσ b).lower_bound) = true)
      (bfRunAll C6exσ [0, 1, 2]) :=
  (C6_best_first_nondecreasing C6exσ [0, 1, 2] (by decide) (by decide)).1

/-- The working set of scenario E5: `(depth 1, lb 10)`, `(depth 2, lb 30)`,
`(depth 2, lb 20)` (ids 0, 1, 2). -/
def C7exσ : Int → BPNode :=
  fun i =>
    if i = 0 then { BPNode.mkRoot with depth := 1, lower_bound := D.fin 10 }
    else if i = 1 then { BPNode.mkRoot with depth := 2, lower_bound := D.fin 30 }
    else { BPNode.mkRoot with depth := 2, lower_bound := D.fin 20 }

/-- C7: on a static all-explorable working set with non-NaN bounds,
repeated `DepthFirstSelector::select_next` returns nodes in depth-descending
order with lower-bound-ascending tiebreak; concretely, from
`(depth 1, lb 10)`, `(depth 2, lb 30)`, `(depth 2, lb 20)` the selection
order is the `(2, 20)` node, then `(2, 30)`, then the depth-1 node. -/
theorem C7_depth_first_order (σ : Int → BPNode) (q : List Int)
    (_hex : ∀ i ∈ q, (σ i).can_be_explored = true)
    (hnn : ∀ i ∈ q, (σ i).lower_bound ≠ D.nan) :
    List.Pairwise (dfPriorityGe σ) (dfRunAll σ q) ∧
    (dfRunAll C7exσ [0, 1, 2] = [2, 1, 0] ∧
      (C7exσ 2).depth = 2 ∧ (C7exσ 2).lower_bound = D.fin 20 ∧
      (C7exσ 1).depth = 2 ∧ (C7exσ 1).lower_bound = D.fin 30 ∧
      (C7exσ 0).depth = 1 ∧ (C7exσ 0).lower_bound = D.fin 10) := by
  constructor
  · exact (pqDrain_spec (dfCmp σ) σ (fun i => (σ i).lower_bound ≠ D.nan)
      (fun a b => dfPriorityGe σ b a)
      (fun a b _ _ h => dfCmp_true h)
      (fun a b ha hb h => dfCmp_false ha hb h)
      (fun a b c _ _ _ hab hbc => dfPriorityGe_trans hab hbc)
      q.length q hnn).2
  · exact ⟨by decide, rfl, rfl, rfl, rfl, rfl, rfl⟩

theorem C7_depth_first_order_witness :
    List.Pairwise (dfPriorityGe C7exσ) (dfRunAll C7exσ [0, 1, 2]) :=
  (C7_depth_first_order C7exσ [0, 1, 2] (by decide) (by decide)).1
